import Mathlib

/-!
Verification development for the akasha storage engine.

Shallow embedding of the storage-and-execution core:
value/tuple codec (`src/page/tuple.rs`), slotted page (`src/page/mod.rs`),
table heap and scan iterator (`src/table/heap.rs`), composed stream
operators (`src/query/stream.rs`), insert execution (`src/query/exec.rs`),
plan compiler (`src/query/compiler.rs`), AST transformer built-in registry
(`src/query/transformer.rs`, `src/query/builtins.rs`) and the buffer-pool
pin protocol (`src/page/pool.rs`).

Bytes are modelled as natural numbers below 256; machine integers are
modelled as `Nat`/`Int` with explicit bounds; fallible code returns
`Except`/`Option`; Rust panics are folded into `none`/preconditions and
noted at each definition.
-/

set_option maxRecDepth 4000

namespace Akasha

/-! ## Little-endian byte encoding helpers

Models `u16/u32/u64::to_le_bytes`/`from_le_bytes` and the `i32/i64`
(two's-complement) variants used by the value codec. -/

/-- `k` little-endian bytes of `n` (model of `uN::to_le_bytes`). -/
def toLeBytes : Nat → Nat → List Nat
  | 0, _ => []
  | k + 1, n => (n % 256) :: toLeBytes k (n / 256)

/-- Read a little-endian byte list back as a natural number
(model of `uN::from_le_bytes`). -/
def fromLeBytes : List Nat → Nat
  | [] => 0
  | b :: bs => b + 256 * fromLeBytes bs

theorem toLeBytes_length (k n : Nat) : (toLeBytes k n).length = k := by
  induction k generalizing n with
  | zero => rfl
  | succ k ih => simp [toLeBytes, ih]

theorem toLeBytes_lt (k n : Nat) : ∀ b ∈ toLeBytes k n, b < 256 := by
  induction k generalizing n with
  | zero => intro b hb; simp [toLeBytes] at hb
  | succ k ih =>
    intro b hb
    simp only [toLeBytes, List.mem_cons] at hb
    rcases hb with h | h
    · omega
    · exact ih _ _ h

theorem fromLeBytes_toLeBytes (k n : Nat) (h : n < 256 ^ k) :
    fromLeBytes (toLeBytes k n) = n := by
  induction k generalizing n with
  | zero =>
    rw [pow_zero] at h
    simp only [toLeBytes, fromLeBytes]
    omega
  | succ k ih =>
    have hdiv : n / 256 < 256 ^ k := by
      rw [Nat.div_lt_iff_lt_mul (by norm_num)]
      calc n < 256 ^ (k + 1) := h
        _ = 256 ^ k * 256 := by ring
    simp only [toLeBytes, fromLeBytes, ih (n / 256) hdiv]
    omega

theorem fromLeBytes_lt (k : Nat) (bs : List Nat) (hlen : bs.length = k)
    (hb : ∀ b ∈ bs, b < 256) : fromLeBytes bs < 256 ^ k := by
  induction bs generalizing k with
  | nil =>
    simp only [fromLeBytes]
    positivity
  | cons b bs ih =>
    cases k with
    | zero => simp at hlen
    | succ k =>
      have h1 : fromLeBytes bs < 256 ^ k :=
        ih k (by simpa using hlen) (fun x hx => hb x (List.mem_cons_of_mem _ hx))
      have h2 : b < 256 := hb b (List.mem_cons_self _ _)
      simp only [fromLeBytes]
      calc b + 256 * fromLeBytes bs < 256 + 256 * fromLeBytes bs := by omega
        _ ≤ 256 * (fromLeBytes bs + 1) := by ring_nf; omega
        _ ≤ 256 * 256 ^ k := by
            have : fromLeBytes bs + 1 ≤ 256 ^ k := h1
            exact Nat.mul_le_mul_left _ this
        _ = 256 ^ (k + 1) := by ring

/-- Two's-complement little-endian encoding of a signed integer in `k`
bytes (model of `iN::to_le_bytes`). -/
def intToLeBytes (k : Nat) (i : Int) : List Nat :=
  toLeBytes k (i.emod ((256 : Int) ^ k)).toNat

/-- Decode `k` little-endian bytes as a two's-complement signed integer
(model of `iN::from_le_bytes`). -/
def leBytesToInt (k : Nat) (bs : List Nat) : Int :=
  let n := fromLeBytes bs
  if 2 * n < 256 ^ k then (n : Int) else (n : Int) - (256 : Int) ^ k

theorem intToLeBytes_length (k : Nat) (i : Int) : (intToLeBytes k i).length = k :=
  toLeBytes_length _ _

theorem leBytesToInt_intToLeBytes (k : Nat) (i : Int)
    (h1 : -((256 : Int) ^ k) ≤ 2 * i) (h2 : 2 * i < (256 : Int) ^ k) :
    leBytesToInt k (intToLeBytes k i) = i := by
  have hM : (0 : Int) < (256 : Int) ^ k := by positivity
  rcases le_or_lt 0 i with hpos | hneg
  · have hemod : i.emod ((256 : Int) ^ k) = i := by
      apply Int.emod_eq_of_lt hpos; omega
    have hlt : i.toNat < 256 ^ k := by
      have : ((256 : Int) ^ k) = ((256 ^ k : Nat) : Int) := by push_cast; ring
      omega
    simp only [intToLeBytes, hemod, leBytesToInt,
      fromLeBytes_toLeBytes k i.toNat hlt]
    have hbranch : 2 * i.toNat < 256 ^ k := by
      have : ((256 : Int) ^ k) = ((256 ^ k : Nat) : Int) := by push_cast; ring
      omega
    simp only [if_pos hbranch]
    omega
  · have hemod : i.emod ((256 : Int) ^ k) = i + (256 : Int) ^ k := by
      have e1 : ((i + (256 : Int) ^ k) + ((256 : Int) ^ k) * (-1)).emod ((256 : Int) ^ k)
          = (i + (256 : Int) ^ k).emod ((256 : Int) ^ k) :=
        @Int.add_mul_emod_self_left (i + (256 : Int) ^ k) ((256 : Int) ^ k) (-1)
      have e2 : (i + (256 : Int) ^ k) + ((256 : Int) ^ k) * (-1) = i := by ring
      rw [e2] at e1
      rw [e1]
      apply Int.emod_eq_of_lt <;> omega
    have hlt : (i + (256 : Int) ^ k).toNat < 256 ^ k := by
      have : ((256 : Int) ^ k) = ((256 ^ k : Nat) : Int) := by push_cast; ring
      omega
    simp only [intToLeBytes, hemod, leBytesToInt,
      fromLeBytes_toLeBytes k _ hlt]
    have hge : ¬ (2 * (i + (256 : Int) ^ k).toNat < 256 ^ k) := by
      have : ((256 : Int) ^ k) = ((256 ^ k : Nat) : Int) := by push_cast; ring
      omega
    simp only [if_neg hge]
    have : ((256 : Int) ^ k) = ((256 ^ k : Nat) : Int) := by push_cast; ring
    omega

/-! ## Values and the byte codec (`src/page/tuple.rs`)

`Value` mirrors the Rust enum. Payload representations:
`f32`/`f64` are carried as their little-endian bit patterns (the codec
only moves bytes); `String` is carried as its UTF-8 byte list
(`from_utf8_lossy` is the identity on the valid UTF-8 the encoder
produced); `chrono::NaiveDate` is carried as its `(year, month, day)`
components and `chrono::NaiveDateTime` as `(timestamp seconds,
subsecond nanos)` — exactly the components the codec serializes. -/

inductive Value where
  | null
  | int (i : Int)
  | long (i : Int)
  | float (bits : Nat)
  | double (bits : Nat)
  | text (bytes : List Nat)
  | boolean (b : Bool)
  | date (year : Int) (month : Nat) (day : Nat)
  | datetime (secs : Int) (nanos : Nat)
  | blob (bytes : List Nat)
  | byte (b : Nat)
deriving DecidableEq

/-- Mirror of `Value::id` (the one-byte tag). -/
def Value.id : Value → Nat
  | .null => 0x00
  | .int _ => 0x01
  | .long _ => 0x02
  | .float _ => 0x03
  | .double _ => 0x04
  | .text _ => 0x05
  | .boolean _ => 0x06
  | .date _ _ _ => 0x07
  | .datetime _ _ => 0x08
  | .blob _ => 0x09
  | .byte _ => 0x0A

/-- Mirror of `Value::to_bytes_into` (as the pure list of appended
bytes). `as u16` casts on lengths and date components are `% 65536`. -/
def Value.toBytes : Value → List Nat
  | .null => [0x00]
  | .int i => 0x01 :: intToLeBytes 4 i
  | .long i => 0x02 :: intToLeBytes 8 i
  | .float bits => 0x03 :: toLeBytes 4 bits
  | .double bits => 0x04 :: toLeBytes 8 bits
  | .text s => 0x05 :: (toLeBytes 2 (s.length % 65536) ++ s)
  | .boolean b => [0x06, if b then 1 else 0]
  | .date y m d =>
      0x07 :: (intToLeBytes 4 y ++ toLeBytes 2 (m % 65536) ++ toLeBytes 2 (d % 65536))
  | .datetime s n => 0x08 :: (intToLeBytes 8 s ++ toLeBytes 4 n)
  | .blob bs => 0x09 :: (toLeBytes 2 (bs.length % 65536) ++ bs)
  | .byte b => [0x0A, b % 256]

/-- Mirror of `Value::get_size`. -/
def Value.getSize : Value → Nat
  | .null => 1
  | .int _ => 5
  | .long _ => 9
  | .float _ => 5
  | .double _ => 9
  | .text s => 3 + s.length
  | .boolean _ => 2
  | .date _ _ _ => 9
  | .datetime _ _ => 13
  | .blob bs => 3 + bs.length
  | .byte _ => 2

/-- Mirror of `Value::read_from_bytes`. Rust panics (empty input, short
input slices, unknown tags, `from_ymd_opt(..).unwrap()`) are folded into
`none`; on success returns the value and the number of consumed bytes. -/
def Value.readFromBytes (data : List Nat) : Option (Value × Nat) :=
  match data with
  | [] => none
  | tag :: rest =>
    if tag = 0x00 then some (.null, 1)
    else if tag = 0x01 then
      if 4 ≤ rest.length then some (.int (leBytesToInt 4 (rest.take 4)), 5) else none
    else if tag = 0x02 then
      if 8 ≤ rest.length then some (.long (leBytesToInt 8 (rest.take 8)), 9) else none
    else if tag = 0x03 then
      if 4 ≤ rest.length then some (.float (fromLeBytes (rest.take 4)), 5) else none
    else if tag = 0x04 then
      if 8 ≤ rest.length then some (.double (fromLeBytes (rest.take 8)), 9) else none
    else if tag = 0x05 then
      if 2 ≤ rest.length then
        let len := fromLeBytes (rest.take 2)
        if 2 + len ≤ rest.length then some (.text ((rest.drop 2).take len), 3 + len)
        else none
      else none
    else if tag = 0x06 then
      match rest with
      | [] => none
      | b :: _ => some (.boolean (b ≠ 0), 2)
    else if tag = 0x07 then
      if 8 ≤ rest.length then
        some (.date (leBytesToInt 4 (rest.take 4))
          (fromLeBytes ((rest.drop 4).take 2)) (fromLeBytes ((rest.drop 6).take 2)), 9)
      else none
    else if tag = 0x08 then
      if 12 ≤ rest.length then
        some (.datetime (leBytesToInt 8 (rest.take 8)) (fromLeBytes ((rest.drop 8).take 4)), 13)
      else none
    else if tag = 0x09 then
      if 2 ≤ rest.length then
        let len := fromLeBytes (rest.take 2)
        if 2 + len ≤ rest.length then some (.blob ((rest.drop 2).take len), 3 + len)
        else none
      else none
    else if tag = 0x0A then
      match rest with
      | [] => none
      | b :: _ => some (.byte b, 2)
    else none

/-- Well-formedness of a modelled `Value`: the payload bounds guaranteed
by the Rust types (`i32`, `i64`, `u8`, bit patterns of `f32`/`f64`,
`chrono` component ranges) plus the ≤ 65535 length bound on `Text`/`Blob`
payloads. -/
def Value.wf : Value → Bool
  | .null => true
  | .int i => decide (-(2 ^ 31) ≤ i ∧ i < 2 ^ 31)
  | .long i => decide (-(2 ^ 63) ≤ i ∧ i < 2 ^ 63)
  | .float bits => decide (bits < 2 ^ 32)
  | .double bits => decide (bits < 2 ^ 64)
  | .text s => decide (s.length ≤ 65535) && s.all (fun b => b < 256)
  | .boolean _ => true
  | .date y m d =>
      decide (-(2 ^ 31) ≤ y ∧ y < 2 ^ 31) && decide (1 ≤ m ∧ m ≤ 12) &&
        decide (1 ≤ d ∧ d ≤ 31)
  | .datetime s n => decide (-(2 ^ 63) ≤ s ∧ s < 2 ^ 63) && decide (n < 2 ^ 32)
  | .blob bs => decide (bs.length ≤ 65535) && bs.all (fun b => b < 256)
  | .byte b => decide (b < 256)

/-- A `Tuple` is an ordered sequence of values (`struct Tuple(Vec<Value>)`). -/
abbrev Tuple := List Value

/-- Mirror of `Tuple::to_bytes`: concatenation of the values' encodings. -/
def Tuple.toBytes (t : Tuple) : List Nat :=
  (t.map Value.toBytes).flatten

/-- Fueled decoding loop of `Tuple::from_bytes` (`while offset < data.len()`).
The fuel is instantiated with `data.length`, which bounds the number of
iterations since every successful read consumes at least one byte. -/
def Tuple.fromBytesAux : Nat → List Nat → Option (List Value)
  | _, [] => some []
  | 0, _ :: _ => none
  | fuel + 1, data => do
    let (v, n) ← Value.readFromBytes data
    let vs ← Tuple.fromBytesAux fuel (data.drop n)
    return v :: vs

/-- Mirror of `Tuple::from_bytes`; decoding panics are folded into `none`. -/
def Tuple.fromBytes (data : List Nat) : Option (List Value) :=
  Tuple.fromBytesAux data.length data

/-! ## Round-trip of the value codec -/

theorem take_append_len {α : Type} (l₁ l₂ : List α) (n : Nat) (h : l₁.length = n) :
    (l₁ ++ l₂).take n = l₁ := by
  induction l₁ generalizing n with
  | nil =>
    simp only [List.length_nil] at h
    rw [← h]
    simp
  | cons a l ih =>
    cases n with
    | zero => simp at h
    | succ n => simp only [List.cons_append, List.take_succ_cons, ih n (by simpa using h)]

theorem drop_append_len {α : Type} (l₁ l₂ : List α) (n : Nat) (h : l₁.length = n) :
    (l₁ ++ l₂).drop n = l₂ := by
  induction l₁ generalizing n with
  | nil =>
    simp only [List.length_nil] at h
    rw [← h]
    simp
  | cons a l ih =>
    cases n with
    | zero => simp at h
    | succ n => simp only [List.cons_append, List.drop_succ_cons, ih n (by simpa using h)]

theorem Value.toBytes_ne_nil (v : Value) : v.toBytes ≠ [] := by
  cases v <;> simp [Value.toBytes]

/-- Decoding picks up exactly the value that was encoded, for any suffix. -/
theorem Value.readFromBytes_toBytes (v : Value) (hwf : v.wf = true) (rest : List Nat) :
    Value.readFromBytes (v.toBytes ++ rest) = some (v, v.toBytes.length) := by
  cases v with
  | null => simp [Value.toBytes, Value.readFromBytes]
  | int i =>
    simp only [Value.wf, decide_eq_true_eq] at hwf
    have hlen : (intToLeBytes 4 i).length = 4 := intToLeBytes_length 4 i
    have hrt : leBytesToInt 4 (intToLeBytes 4 i) = i := by
      apply leBytesToInt_intToLeBytes <;> norm_num <;> omega
    simp [Value.toBytes, Value.readFromBytes, List.length_append, hlen,
      take_append_len _ _ 4 hlen, hrt]
  | long i =>
    simp only [Value.wf, decide_eq_true_eq] at hwf
    have hlen : (intToLeBytes 8 i).length = 8 := intToLeBytes_length 8 i
    have hrt : leBytesToInt 8 (intToLeBytes 8 i) = i := by
      apply leBytesToInt_intToLeBytes <;> norm_num <;> omega
    simp [Value.toBytes, Value.readFromBytes, List.length_append, hlen,
      take_append_len _ _ 8 hlen, hrt]
  | float bits =>
    simp only [Value.wf, decide_eq_true_eq] at hwf
    have hlen : (toLeBytes 4 bits).length = 4 := toLeBytes_length 4 bits
    have hrt : fromLeBytes (toLeBytes 4 bits) = bits :=
      fromLeBytes_toLeBytes 4 bits (by norm_num; omega)
    simp [Value.toBytes, Value.readFromBytes, List.length_append, hlen,
      take_append_len _ _ 4 hlen, hrt]
  | double bits =>
    simp only [Value.wf, decide_eq_true_eq] at hwf
    have hlen : (toLeBytes 8 bits).length = 8 := toLeBytes_length 8 bits
    have hrt : fromLeBytes (toLeBytes 8 bits) = bits :=
      fromLeBytes_toLeBytes 8 bits (by norm_num; omega)
    simp [Value.toBytes, Value.readFromBytes, List.length_append, hlen,
      take_append_len _ _ 8 hlen, hrt]
  | text s =>
    simp only [Value.wf, Bool.and_eq_true, decide_eq_true_eq] at hwf
    have hmod : s.length % 65536 = s.length := Nat.mod_eq_of_lt (by omega)
    have hlen2 : (toLeBytes 2 (s.length % 65536)).length = 2 := toLeBytes_length _ _
    have hrt : fromLeBytes (toLeBytes 2 (s.length % 65536)) = s.length := by
      rw [hmod]
      exact fromLeBytes_toLeBytes 2 s.length (by norm_num; omega)
    have hassoc : (toLeBytes 2 (s.length % 65536) ++ s) ++ rest
        = toLeBytes 2 (s.length % 65536) ++ (s ++ rest) := by
      rw [List.append_assoc]
    simp only [Value.toBytes, List.cons_append, hassoc, Value.readFromBytes]
    rw [take_append_len _ _ 2 hlen2, drop_append_len _ _ 2 hlen2, hrt]
    simp [List.length_append, hlen2, take_append_len s rest s.length rfl]
    omega
  | boolean b =>
    cases b <;> simp [Value.toBytes, Value.readFromBytes]
  | date y m d =>
    simp only [Value.wf, Bool.and_eq_true, decide_eq_true_eq] at hwf
    have hmodm : m % 65536 = m := Nat.mod_eq_of_lt (by omega)
    have hmodd : d % 65536 = d := Nat.mod_eq_of_lt (by omega)
    have hy : (intToLeBytes 4 y).length = 4 := intToLeBytes_length 4 y
    have hm2 : (toLeBytes 2 (m % 65536)).length = 2 := toLeBytes_length _ _
    have hrty : leBytesToInt 4 (intToLeBytes 4 y) = y := by
      apply leBytesToInt_intToLeBytes <;> norm_num <;> omega
    have hrtm : fromLeBytes (toLeBytes 2 (m % 65536)) = m := by
      rw [hmodm]; exact fromLeBytes_toLeBytes 2 m (by norm_num; omega)
    have hrtd : fromLeBytes (toLeBytes 2 (d % 65536)) = d := by
      rw [hmodd]; exact fromLeBytes_toLeBytes 2 d (by norm_num; omega)
    have h6 : (intToLeBytes 4 y ++ toLeBytes 2 (m % 65536)).length = 6 := by
      simp [List.length_append, hy, hm2]
    have hassoc : ((intToLeBytes 4 y ++ toLeBytes 2 (m % 65536)) ++ toLeBytes 2 (d % 65536)) ++ rest
        = intToLeBytes 4 y ++ (toLeBytes 2 (m % 65536) ++ (toLeBytes 2 (d % 65536) ++ rest)) := by
      simp [List.append_assoc]
    have hassoc2 : intToLeBytes 4 y ++ (toLeBytes 2 (m % 65536) ++ (toLeBytes 2 (d % 65536) ++ rest))
        = (intToLeBytes 4 y ++ toLeBytes 2 (m % 65536)) ++ (toLeBytes 2 (d % 65536) ++ rest) := by
      simp [List.append_assoc]
    simp only [Value.toBytes, List.cons_append, hassoc, Value.readFromBytes]
    rw [take_append_len _ _ 4 hy, drop_append_len _ _ 4 hy,
      take_append_len _ _ 2 hm2, hassoc2, drop_append_len _ _ 6 h6,
      take_append_len _ _ 2 (toLeBytes_length _ _), hrty, hrtm, hrtd]
    simp [List.length_append, hy, hm2, toLeBytes_length]
    omega
  | datetime s n =>
    simp only [Value.wf, Bool.and_eq_true, decide_eq_true_eq] at hwf
    have hs : (intToLeBytes 8 s).length = 8 := intToLeBytes_length 8 s
    have hn : (toLeBytes 4 n).length = 4 := toLeBytes_length 4 n
    have hrts : leBytesToInt 8 (intToLeBytes 8 s) = s := by
      apply leBytesToInt_intToLeBytes <;> norm_num <;> omega
    have hrtn : fromLeBytes (toLeBytes 4 n) = n :=
      fromLeBytes_toLeBytes 4 n (by norm_num; omega)
    have hassoc : (intToLeBytes 8 s ++ toLeBytes 4 n) ++ rest
        = intToLeBytes 8 s ++ (toLeBytes 4 n ++ rest) := by
      rw [List.append_assoc]
    simp only [Value.toBytes, List.cons_append, hassoc, Value.readFromBytes]
    rw [take_append_len _ _ 8 hs, drop_append_len _ _ 8 hs,
      take_append_len _ _ 4 hn, hrts, hrtn]
    simp [List.length_append, hs, hn]
    omega
  | blob bs =>
    simp only [Value.wf, Bool.and_eq_true, decide_eq_true_eq] at hwf
    have hmod : bs.length % 65536 = bs.length := Nat.mod_eq_of_lt (by omega)
    have hlen2 : (toLeBytes 2 (bs.length % 65536)).length = 2 := toLeBytes_length _ _
    have hrt : fromLeBytes (toLeBytes 2 (bs.length % 65536)) = bs.length := by
      rw [hmod]
      exact fromLeBytes_toLeBytes 2 bs.length (by norm_num; omega)
    have hassoc : (toLeBytes 2 (bs.length % 65536) ++ bs) ++ rest
        = toLeBytes 2 (bs.length % 65536) ++ (bs ++ rest) := by
      rw [List.append_assoc]
    simp only [Value.toBytes, List.cons_append, hassoc, Value.readFromBytes]
    rw [take_append_len _ _ 2 hlen2, drop_append_len _ _ 2 hlen2, hrt]
    simp [List.length_append, hlen2, take_append_len bs rest bs.length rfl]
    omega
  | byte b =>
    simp only [Value.wf, decide_eq_true_eq] at hwf
    have hmod : b % 256 = b := Nat.mod_eq_of_lt hwf
    simp [Value.toBytes, Value.readFromBytes, hmod]

theorem Tuple.fromBytesAux_toBytes (vs : List Value) (h : ∀ v ∈ vs, v.wf = true) :
    ∀ fuel, (Tuple.toBytes vs).length ≤ fuel →
      Tuple.fromBytesAux fuel (Tuple.toBytes vs) = some vs := by
  induction vs with
  | nil =>
    intro fuel _
    simp [Tuple.toBytes, Tuple.fromBytesAux]
  | cons v vs ih =>
    intro fuel hfuel
    have hwf : v.wf = true := h v (List.mem_cons_self _ _)
    have hdata : Tuple.toBytes (v :: vs) = v.toBytes ++ Tuple.toBytes vs := by
      simp [Tuple.toBytes]
    have hvpos : 0 < v.toBytes.length :=
      List.length_pos.mpr (Value.toBytes_ne_nil v)
    have hlen : 0 < (Tuple.toBytes (v :: vs)).length := by
      rw [hdata, List.length_append]; omega
    cases fuel with
    | zero => omega
    | succ fuel =>
      obtain ⟨b, tl, hcons⟩ := List.exists_cons_of_ne_nil (List.length_pos.mp hlen)
      rw [hcons]
      show (do
        let (v', n) ← Value.readFromBytes (b :: tl)
        let vs' ← Tuple.fromBytesAux fuel ((b :: tl).drop n)
        return v' :: vs') = some (v :: vs)
      rw [← hcons, hdata, Value.readFromBytes_toBytes v hwf]
      simp only [Option.bind_eq_bind, Option.some_bind]
      rw [drop_append_len _ _ _ rfl]
      rw [ih (fun x hx => h x (List.mem_cons_of_mem _ hx)) fuel
        (by rw [hdata, List.length_append] at hfuel; omega)]
      simp

/-- Claim C1: for every tuple of well-formed values (payload bounds of the
Rust types, Text/Blob payloads at most 65535 bytes), decoding the encoding
is the identity — `Tuple::from_bytes(t.to_bytes()) == t` — and every single
value round-trips through the tag-prefixed little-endian codec. -/
theorem c1_tuple_value_codec_roundtrip :
    (∀ t : Tuple, t.all Value.wf = true →
      Tuple.fromBytes (Tuple.toBytes t) = some t)
    ∧ (∀ v : Value, v.wf = true →
      Value.readFromBytes v.toBytes = some (v, v.toBytes.length)) := by
  constructor
  · intro t ht
    have h : ∀ v ∈ t, v.wf = true := by simpa [List.all_eq_true] using ht
    exact Tuple.fromBytesAux_toBytes t h _ le_rfl
  · intro v hv
    have h := Value.readFromBytes_toBytes v hv []
    simpa using h

/-- Witness for C1 at a concrete mixed-kind tuple covering every value kind. -/
theorem c1_tuple_value_codec_roundtrip_witness :
    Tuple.fromBytes (Tuple.toBytes [Value.int 3, Value.text [104, 105],
      Value.boolean true, Value.date 2024 5 17, Value.blob [1, 2],
      Value.byte 255, Value.long (-7), Value.float 0, Value.double 1,
      Value.null, Value.datetime 12 34])
    = some [Value.int 3, Value.text [104, 105], Value.boolean true,
      Value.date 2024 5 17, Value.blob [1, 2], Value.byte 255,
      Value.long (-7), Value.float 0, Value.double 1, Value.null,
      Value.datetime 12 34] :=
  c1_tuple_value_codec_roundtrip.1 _ (by decide)

/-! ## Slotted page (`src/page/mod.rs`)

A page is its 4096-byte buffer, modelled as a list of naturals below 256.
`readU16 d i` mirrors `u16::from_le_bytes([d[i], d[i+1]])` (the source
always indexes in bounds; out-of-range indices default to 0).
`writeBytes d start bs` mirrors `d[start..start+bs.len()].copy_from_slice(bs)`
for in-bounds writes. -/

def PAGE_SIZE : Nat := 4096

def HEADER_SIZE : Nat := 4

def SLOT_META_SIZE : Nat := 4

def readU16 (d : List Nat) (i : Nat) : Nat :=
  d.getD i 0 + 256 * d.getD (i + 1) 0

def writeBytes (d : List Nat) (start : Nat) (bs : List Nat) : List Nat :=
  d.take start ++ bs ++ d.drop (start + bs.length)

/-- Mirror of `Page::init_new`: zero the buffer, set N = 0 and
F = `min(PAGE_SIZE, u16::MAX)` = 4096. -/
def Page.initNew : List Nat :=
  writeBytes (writeBytes (List.replicate PAGE_SIZE 0) 0 (toLeBytes 2 0)) 2
    (toLeBytes 2 (min PAGE_SIZE 65535))

/-- Mirror of `Page::insert_tuple`. The error paths return before any
write, leaving the buffer unchanged. `len` is `bytes.len() as u16`,
i.e. `% 65536`; when the encoded length exceeds 65535 the Rust
`copy_from_slice` would panic on mismatched lengths, so theorems about
the success path restrict to encoded lengths below 2^16. -/
def Page.insertTuple (t : Tuple) (d : List Nat) : List Nat × Except String Nat :=
  if readU16 d 2 = 0 ∨ PAGE_SIZE < readU16 d 2 then
    (d, .error "invalid page state: corrupted free pointer")
  else if readU16 d 2 < (Tuple.toBytes t).length % 65536 then
    (d, .error "page full: tuple too large")
  else if readU16 d 2 - (Tuple.toBytes t).length % 65536
      ≤ HEADER_SIZE + (readU16 d 0 + 1) * SLOT_META_SIZE then
    (d, .error "page full: not enough space")
  else
    let newDataStart := readU16 d 2 - (Tuple.toBytes t).length % 65536
    let d1 := writeBytes d newDataStart (Tuple.toBytes t)
    let d2 := writeBytes d1 (HEADER_SIZE + readU16 d 0 * SLOT_META_SIZE)
      (toLeBytes 2 (newDataStart % 65536) ++ toLeBytes 2 ((Tuple.toBytes t).length % 65536))
    let d3 := writeBytes d2 0 (toLeBytes 2 ((readU16 d 0 + 1) % 65536))
    let d4 := writeBytes d3 2 (toLeBytes 2 (newDataStart % 65536))
    (d4, .ok (readU16 d 0))

/-- Mirror of `Page::get_tuple`: `none` when `idx ≥ N`, otherwise decode
the slot's byte range. A Rust decoding panic is folded into `none`. -/
def Page.getTuple (d : List Nat) (idx : Nat) : Option (List Value) :=
  if readU16 d 0 ≤ idx then none
  else
    let slotPos := HEADER_SIZE + idx * SLOT_META_SIZE
    let offset := readU16 d slotPos
    let length := readU16 d (slotPos + 2)
    Tuple.fromBytes ((d.drop offset).take length)

/-- Mirror of `Page::available_space`. -/
def Page.availableSpace (d : List Nat) : Nat :=
  if HEADER_SIZE + readU16 d 0 * SLOT_META_SIZE < readU16 d 2 then
    readU16 d 2 - (HEADER_SIZE + readU16 d 0 * SLOT_META_SIZE)
  else 0

/-- The page invariants assumed by claim C2: a 4096-byte buffer with slot
count N and free pointer F satisfying `4 + 4N ≤ F ≤ 4096`. -/
def PageInv (d : List Nat) : Prop :=
  d.length = PAGE_SIZE ∧ (∀ b ∈ d, b < 256) ∧
    HEADER_SIZE + readU16 d 0 * SLOT_META_SIZE ≤ readU16 d 2 ∧
    readU16 d 2 ≤ PAGE_SIZE

theorem availableSpace_eq (d : List Nat)
    (h : HEADER_SIZE + readU16 d 0 * SLOT_META_SIZE ≤ readU16 d 2) :
    Page.availableSpace d
      = readU16 d 2 - (HEADER_SIZE + readU16 d 0 * SLOT_META_SIZE) := by
  unfold Page.availableSpace
  split_ifs with hlt
  · rfl
  · omega

theorem writeBytes_length (d : List Nat) (start : Nat) (bs : List Nat)
    (h : start + bs.length ≤ d.length) : (writeBytes d start bs).length = d.length := by
  simp only [writeBytes, List.length_append, List.length_take, List.length_drop]
  omega

theorem writeBytes_mem (d : List Nat) (start : Nat) (bs : List Nat)
    (hd : ∀ b ∈ d, b < 256) (hbs : ∀ b ∈ bs, b < 256) :
    ∀ b ∈ writeBytes d start bs, b < 256 := by
  intro b hb
  unfold writeBytes at hb
  simp only [List.mem_append] at hb
  rcases hb with (h | h) | h
  · exact hd b (List.take_subset _ _ h)
  · exact hbs b h
  · exact hd b (List.drop_subset _ _ h)

theorem initNew_length : Page.initNew.length = PAGE_SIZE := by
  have h1 : (writeBytes (List.replicate PAGE_SIZE 0) 0 (toLeBytes 2 0)).length = PAGE_SIZE := by
    rw [writeBytes_length]
    · rw [List.length_replicate]
    · rw [toLeBytes_length, List.length_replicate]
      decide
  unfold Page.initNew
  rw [writeBytes_length]
  · exact h1
  · rw [h1, toLeBytes_length]
    decide

theorem initNew_pageInv : PageInv Page.initNew := by
  refine ⟨initNew_length, ?_, ?_, ?_⟩
  · apply writeBytes_mem
    · apply writeBytes_mem
      · intro b hb
        have hb0 := List.eq_of_mem_replicate hb
        omega
      · exact toLeBytes_lt 2 0
    · exact toLeBytes_lt 2 _
  · decide
  · decide

/-- Encoded length of the exact-fit counterexample tuple: a Blob of 4085
payload bytes encodes to 1 (tag) + 2 (length) + 4085 = 4088 bytes. -/
theorem blobTuple_toBytes_length :
    (Tuple.toBytes [Value.blob (List.replicate 4085 0)]).length = 4088 := by
  simp only [Tuple.toBytes, List.map, List.flatten_cons, List.flatten_nil,
    List.append_nil, Value.toBytes, List.length_cons, List.length_append,
    toLeBytes_length, List.length_replicate]

/-- The exact-fit insert is rejected with the not-enough-space error. -/
theorem blobTuple_insert_initNew :
    (Page.insertTuple [Value.blob (List.replicate 4085 0)] Page.initNew).2
      = Except.error "page full: not enough space" := by
  have h0 : readU16 Page.initNew 0 = 0 := by decide
  have h2 : readU16 Page.initNew 2 = 4096 := by decide
  unfold Page.insertTuple
  rw [blobTuple_toBytes_length, h0, h2]
  rw [if_neg (by decide), if_neg (by decide), if_pos (by decide)]

/-- Claim C2 counterexample: on a freshly initialized page (free gap 4092)
a tuple of encoded length 4088 has `gap = len + 4`, which the claim says
must succeed (`Full` only when the gap is *strictly* less than `len + 4`),
yet `insert_tuple` rejects it. -/
theorem c2_counterexample :
    ¬ (Page.availableSpace Page.initNew
        < (Tuple.toBytes [Value.blob (List.replicate 4085 0)]).length + SLOT_META_SIZE)
    ∧ (Page.insertTuple [Value.blob (List.replicate 4085 0)] Page.initNew).2
      = Except.error "page full: not enough space" := by
  constructor
  · have h1 : Page.availableSpace Page.initNew = 4092 := by decide
    rw [h1, blobTuple_toBytes_length]
    decide
  · exact blobTuple_insert_initNew

/-- Claim C2 (amended): under the page invariants, for a tuple whose
encoded length is below 2^16, `insert_tuple` succeeds — returning slot
index N — iff the free gap *strictly exceeds* `len + 4` (one slot entry),
and fails with a page-full error iff `gap ≤ len + 4`. (The source checks
`new_data_start <= new_slot_end`, so the exact-fit case `gap = len + 4`
is rejected, one byte earlier than the claim's strict-less-than bound.) -/
theorem c2_insert_full_boundary (t : Tuple) (d : List Nat) (hinv : PageInv d)
    (hlen : (Tuple.toBytes t).length < 65536) :
    ((Page.insertTuple t d).2 = .ok (readU16 d 0) ↔
      (Tuple.toBytes t).length + SLOT_META_SIZE < Page.availableSpace d)
    ∧ ((∃ e, (Page.insertTuple t d).2 = .error e) ↔
      Page.availableSpace d ≤ (Tuple.toBytes t).length + SLOT_META_SIZE) := by
  obtain ⟨hdlen, hbytes, hlow, hhigh⟩ := hinv
  have havail := availableSpace_eq d hlow
  have hmod : (Tuple.toBytes t).length % 65536 = (Tuple.toBytes t).length :=
    Nat.mod_eq_of_lt hlen
  unfold Page.insertTuple
  simp only [hmod]
  unfold HEADER_SIZE SLOT_META_SIZE PAGE_SIZE at *
  split_ifs with h1 h2 h3
  · omega
  · refine ⟨⟨fun h => by simp at h, fun h => absurd h (by omega)⟩,
      ⟨fun _ => by omega, fun _ => ⟨_, rfl⟩⟩⟩
  · refine ⟨⟨fun h => by simp at h, fun h => absurd h (by omega)⟩,
      ⟨fun _ => by omega, fun _ => ⟨_, rfl⟩⟩⟩
  · refine ⟨⟨fun _ => by omega, fun _ => rfl⟩,
      ⟨fun h => ?_, fun h => absurd h (by omega)⟩⟩
    obtain ⟨e, he⟩ := h
    simp at he

/-- Witness for C2 (amended): inserting a 5-byte tuple into a fresh page
succeeds at slot 0. -/
theorem c2_insert_full_boundary_witness :
    (Page.insertTuple [Value.int 7] Page.initNew).2 = .ok (readU16 Page.initNew 0) :=
  (c2_insert_full_boundary [Value.int 7] Page.initNew initNew_pageInv
    (by simp [Tuple.toBytes, Value.toBytes, intToLeBytes_length])).1.mpr
    (by
      have h1 : Page.availableSpace Page.initNew = 4092 := by decide
      have h2 : (Tuple.toBytes [Value.int 7]).length = 5 := by
        simp [Tuple.toBytes, Value.toBytes, intToLeBytes_length]
      rw [h1, h2]
      decide)

/-- Claim C10: `Page::insert_tuple` is atomic on failure — whenever it
returns an error (corrupted free pointer, tuple larger than the free
pointer, or not enough space), the 4096-byte buffer is byte-for-byte
unchanged. -/
theorem c10_insert_error_leaves_page_unchanged (t : Tuple) (d : List Nat)
    (h : ∃ e, (Page.insertTuple t d).2 = .error e) :
    (Page.insertTuple t d).1 = d := by
  unfold Page.insertTuple at h ⊢
  split_ifs at h ⊢
  · rfl
  · rfl
  · rfl
  · obtain ⟨e, he⟩ := h
    simp at he

/-- Witness for C10 at a concrete failing insert (exact-fit rejection). -/
theorem c10_insert_error_leaves_page_unchanged_witness :
    (Page.insertTuple [Value.blob (List.replicate 4085 0)] Page.initNew).1
      = Page.initNew :=
  c10_insert_error_leaves_page_unchanged _ _
    ⟨"page full: not enough space", blobTuple_insert_initNew⟩

/-! ## Table heap (`src/table/heap.rs`)

A heap is modelled as its ordered page-id list plus the content of its
file's pages as seen through the buffer pool (`store`). `TableHeap::new`
allocates page-id 0; `from_existing` takes the on-disk page count. -/

structure TableHeap where
  pageIds : List Nat
  store : Nat → List Nat

/-- Mirror of `TableHeap::new`: `page_ids = vec![0]`. -/
def TableHeap.new (store : Nat → List Nat) : TableHeap :=
  { pageIds := [0], store := store }

/-- Mirror of `TableHeap::from_existing`:
`page_ids = (0..page_count).collect()`. -/
def TableHeap.fromExisting (pageCount : Nat) (store : Nat → List Nat) : TableHeap :=
  { pageIds := List.range pageCount, store := store }

def updateStore (store : Nat → List Nat) (pid : Nat) (d : List Nat) : Nat → List Nat :=
  fun j => if j = pid then d else store j

/-- The existing-page loop of `TableHeap::insert_tuple`: try each page id
in order, returning the first successful insert. -/
def TableHeap.tryExistingPages (t : Tuple) (store : Nat → List Nat) :
    List Nat → Option (Nat × List Nat)
  | [] => none
  | pid :: rest =>
    match Page.insertTuple t (store pid) with
    | (d', .ok _) => some (pid, d')
    | (_, .error _) => TableHeap.tryExistingPages t store rest

/-- Mirror of `TableHeap::insert_tuple`: try the existing pages in order;
otherwise allocate `new_pid = page_ids.len()`, `init_new` the fabricated
buffer, insert into it, and push the new id only when that insert
succeeded (`page.insert_tuple(tuple)?` propagates before the push). -/
def TableHeap.insertTuple (t : Tuple) (h : TableHeap) : TableHeap × Except String Unit :=
  match TableHeap.tryExistingPages t h.store h.pageIds with
  | some (pid, d') => ({ h with store := updateStore h.store pid d' }, .ok ())
  | none =>
    match Page.insertTuple t Page.initNew with
    | (d', .ok _) =>
      ({ pageIds := h.pageIds ++ [h.pageIds.length],
         store := updateStore h.store h.pageIds.length d' }, .ok ())
    | (d1, .error e) =>
      ({ h with store := updateStore h.store h.pageIds.length d1 }, .error e)

/-- Claim C8: the page-id list is dense — `[0]` after `new`,
`0..page_count` after `from_existing` — and every `insert_tuple` either
leaves the list unchanged or appends exactly the id equal to its current
length, hence preserves density. -/
theorem c8_heap_page_ids_dense :
    (∀ store, (TableHeap.new store).pageIds = [0])
    ∧ (∀ n store, (TableHeap.fromExisting n store).pageIds = List.range n)
    ∧ (∀ t (h : TableHeap),
        ((TableHeap.insertTuple t h).1.pageIds = h.pageIds ∨
          (TableHeap.insertTuple t h).1.pageIds = h.pageIds ++ [h.pageIds.length])
        ∧ (h.pageIds = List.range h.pageIds.length →
            (TableHeap.insertTuple t h).1.pageIds
              = List.range (TableHeap.insertTuple t h).1.pageIds.length)) := by
  refine ⟨fun _ => rfl, fun _ _ => rfl, fun t h => ?_⟩
  unfold TableHeap.insertTuple
  rcases htry : TableHeap.tryExistingPages t h.store h.pageIds with _ | ⟨pid, d'⟩
  · rcases hins : Page.insertTuple t Page.initNew with ⟨d1, r⟩
    rcases r with e | n
    · exact ⟨Or.inl rfl, fun hd => hd⟩
    · refine ⟨Or.inr rfl, fun hd => ?_⟩
      simp only [List.length_append, List.length_singleton]
      rw [List.range_succ, ← hd]
  · exact ⟨Or.inl rfl, fun hd => hd⟩

/-- Witness for C8: inserting into a fresh heap keeps the page-id list
dense. -/
theorem c8_heap_page_ids_dense_witness :
    (TableHeap.insertTuple [Value.int 7] (TableHeap.new (fun _ => Page.initNew))).1.pageIds
      = List.range
        (TableHeap.insertTuple [Value.int 7]
          (TableHeap.new (fun _ => Page.initNew))).1.pageIds.length :=
  (c8_heap_page_ids_dense.2.2 [Value.int 7] (TableHeap.new (fun _ => Page.initNew))).2
    (by decide)

/-! ## Heap scan (`src/table/heap.rs`, `OptimizedTableIterator`)

The iterator's state machine is modelled with the not-yet-fetched tail of
the page-id snapshot plus the current page and slot index:
`none` is `ReadyToFetchNextPage` (next fetch pops the head of the tail),
`some (pid, idx)` is `IteratingPage`. `FetchingPage` always completes with
a non-null buffer (`Shard::get_page` loops until it returns a slot
buffer), and `Poll::Pending` merely re-polls, so the fetch is collapsed
into one step. `scanRun` drives `poll_next` to stream exhaustion and
collects the emitted tuples. -/

theorem Page.getTuple_eq_none_of_ge (d : List Nat) (idx : Nat)
    (h : readU16 d 0 ≤ idx) : Page.getTuple d idx = none := by
  unfold Page.getTuple
  rw [if_pos h]

theorem Page.getTuple_isSome_imp_lt (d : List Nat) (idx : Nat) (t : List Value)
    (h : Page.getTuple d idx = some t) : idx < readU16 d 0 := by
  by_contra hge
  rw [Page.getTuple_eq_none_of_ge d idx (by omega)] at h
  exact Option.noConfusion h

def scanRun (store : Nat → List Nat) :
    List Nat → Option (Nat × Nat) → List (List Value)
  | snapshot, some (pid, idx) =>
    match hm : Page.getTuple (store pid) idx with
    | some t => t :: scanRun store snapshot (some (pid, idx + 1))
    | none => scanRun store snapshot none
  | [], none => []
  | pid :: rest, none => scanRun store rest (some (pid, 0))
termination_by snapshot current =>
  (snapshot.length, match current with
    | some pi => 1 + (readU16 (store pi.1) 0 + 1 - pi.2)
    | none => 0)
decreasing_by
  · apply Prod.Lex.right
    have hlt := Page.getTuple_isSome_imp_lt _ _ _ hm
    omega
  · apply Prod.Lex.right
    omega
  · apply Prod.Lex.left
    simp

/-- Per-page well-formedness for scanning: every slot below the slot
count decodes (the Rust decoder would panic otherwise). -/
def Page.scanWF (d : List Nat) : Prop :=
  ∀ i < readU16 d 0, (Page.getTuple d i).isSome = true

instance (d : List Nat) : Decidable (Page.scanWF d) := by
  unfold Page.scanWF
  infer_instance

/-- The tuples of a page at slots `0..N`. -/
def Page.tuples (d : List Nat) : List (List Value) :=
  (List.range (readU16 d 0)).filterMap (Page.getTuple d)

theorem scanRun_page (store : Nat → List Nat) (snapshot : List Nat) (pid : Nat)
    (hwf : Page.scanWF (store pid)) (j : Nat) :
    scanRun store snapshot (some (pid, j))
      = (List.range' j (readU16 (store pid) 0 - j)).filterMap (Page.getTuple (store pid))
          ++ scanRun store snapshot none := by
  generalize hk : readU16 (store pid) 0 - j = k
  induction k generalizing j with
  | zero =>
    have hge : readU16 (store pid) 0 ≤ j := by omega
    rw [scanRun]
    rw [Page.getTuple_eq_none_of_ge _ _ hge]
    simp [List.range']
  | succ k ih =>
    have hj : j < readU16 (store pid) 0 := by omega
    have hsome := hwf j hj
    obtain ⟨t, ht⟩ := Option.isSome_iff_exists.mp hsome
    rw [scanRun]
    rw [ht]
    have hrange : List.range' j (k + 1) = j :: List.range' (j + 1) k := by
      rw [List.range'_succ]
    rw [hrange]
    simp only [List.filterMap_cons, ht]
    rw [ih (j + 1) (by omega)]
    simp

/-- Claim C3: for every page store and snapshotted page-id list whose
pages all decode, the tuple sequence emitted by the scan iterator equals
the concatenation, over the snapshot in order, of each page's tuples at
slots `0..N` — i.e. tuples are returned in `(page_id, slot_id)` order at
snapshot time. -/
theorem c3_scan_order (store : Nat → List Nat) (snapshot : List Nat)
    (h : ∀ pid ∈ snapshot, Page.scanWF (store pid)) :
    scanRun store snapshot none
      = (snapshot.map (fun pid => Page.tuples (store pid))).flatten := by
  induction snapshot with
  | nil => rw [scanRun]; rfl
  | cons pid rest ih =>
    rw [scanRun]
    rw [scanRun_page store rest pid (h pid (List.mem_cons_self _ _)) 0]
    rw [ih (fun p hp => h p (List.mem_cons_of_mem _ hp))]
    simp only [List.map_cons, List.flatten_cons, Nat.sub_zero]
    rw [Page.tuples, List.range_eq_range']

/-- Witness for C3: scanning a one-page snapshot holding one tuple
emits exactly that tuple. -/
theorem c3_scan_order_witness :
    scanRun (fun _ => [1, 0, 255, 15, 9, 0, 5, 0, 0, 1, 7, 0, 0, 0]) [0] none
      = ([0].map (fun pid =>
          Page.tuples ((fun _ => [1, 0, 255, 15, 9, 0, 5, 0, 0, 1, 7, 0, 0, 0]) pid))).flatten :=
  c3_scan_order _ [0] (by decide)

/-! ## Physical operators and the composed stream (`src/query/stream.rs`)

`TableOp` follows the variant set used consistently by `stream.rs`,
`compiler.rs` and `exec.rs`: `Filter{column_index, operator, value}`,
`PredicativeFilter(fn)`, `Project(Vec<usize>)`, `Map(fn)`, `Limit(usize)`,
`Offset(usize)`.

`Value` derives `PartialOrd` in Rust: different variants compare by
declaration order (which coincides with the tag), same variants compare
their payloads, and the comparison is `None` exactly when a float payload
is NaN. Floats are compared through their bit patterns: non-NaN IEEE-754
ordering is sign-magnitude integer ordering with `-0.0 == +0.0`. -/

inductive ComparisonOperator where
  | eq | neq | gt | gtEq | lt | ltEq | like | notLike
deriving DecidableEq

def boolCmp : Bool → Bool → Ordering
  | false, false => .eq
  | false, true => .lt
  | true, false => .gt
  | true, true => .eq

/-- Lexicographic byte comparison (Rust `Ord` on `String`/`Vec<u8>`). -/
def listCmpNat : List Nat → List Nat → Ordering
  | [], [] => .eq
  | [], _ :: _ => .lt
  | _ :: _, [] => .gt
  | a :: as, b :: bs =>
    match compare a b with
    | .eq => listCmpNat as bs
    | o => o

def f32IsNaN (bits : Nat) : Bool :=
  decide ((bits / 2 ^ 23) % 2 ^ 8 = 255) && decide (bits % 2 ^ 23 ≠ 0)

def f32Key (bits : Nat) : Int :=
  if bits / 2 ^ 31 = 1 then -(((bits % 2 ^ 31 : Nat)) : Int) else ((bits % 2 ^ 31 : Nat) : Int)

def f32Cmp (a b : Nat) : Option Ordering :=
  if f32IsNaN a || f32IsNaN b then none else some (compare (f32Key a) (f32Key b))

def f64IsNaN (bits : Nat) : Bool :=
  decide ((bits / 2 ^ 52) % 2 ^ 11 = 2047) && decide (bits % 2 ^ 52 ≠ 0)

def f64Key (bits : Nat) : Int :=
  if bits / 2 ^ 63 = 1 then -(((bits % 2 ^ 63 : Nat)) : Int) else ((bits % 2 ^ 63 : Nat) : Int)

def f64Cmp (a b : Nat) : Option Ordering :=
  if f64IsNaN a || f64IsNaN b then none else some (compare (f64Key a) (f64Key b))

/-- Mirror of the derived `PartialOrd::partial_cmp` on `Value`. -/
def valuePartialCmp (a b : Value) : Option Ordering :=
  if a.id ≠ b.id then some (compare a.id b.id)
  else
    match a, b with
    | .null, .null => some .eq
    | .int i, .int j => some (compare i j)
    | .long i, .long j => some (compare i j)
    | .float x, .float y => f32Cmp x y
    | .double x, .double y => f64Cmp x y
    | .text s, .text u => some (listCmpNat s u)
    | .boolean x, .boolean y => some (boolCmp x y)
    | .date y1 m1 d1, .date y2 m2 d2 =>
      some (match compare y1 y2 with
        | .eq => (match compare m1 m2 with | .eq => compare d1 d2 | o => o)
        | o => o)
    | .datetime s1 n1, .datetime s2 n2 =>
      some (match compare s1 s2 with | .eq => compare n1 n2 | o => o)
    | .blob s, .blob u => some (listCmpNat s u)
    | .byte x, .byte y => some (compare x y)
    | _, _ => none

/-- `needle` occurs at the head of `hay`. -/
def leadsWith : List Nat → List Nat → Bool
  | [], _ => true
  | _ :: _, [] => false
  | a :: as, b :: bs => a == b && leadsWith as bs

/-- Byte-substring containment (Rust `str::contains` on the UTF-8 bytes):
the needle occurs at the head of some suffix of the haystack. -/
def listContains : List Nat → List Nat → Bool
  | [], needle => leadsWith needle []
  | a :: t, needle => leadsWith needle (a :: t) || listContains t needle

/-- The `matches` computation of the `Filter` arm in
`CombinedOpsStream::apply_ops_to_tuple`. -/
def matchesOp (a : Value) (op : ComparisonOperator) (b : Value) : Bool :=
  match op with
  | .eq => valuePartialCmp a b == some .eq
  | .neq => valuePartialCmp a b != some .eq
  | .gt => valuePartialCmp a b == some .gt
  | .gtEq => valuePartialCmp a b == some .gt || valuePartialCmp a b == some .eq
  | .lt => valuePartialCmp a b == some .lt
  | .ltEq => valuePartialCmp a b == some .lt || valuePartialCmp a b == some .eq
  | .like =>
    match a, b with
    | .text s, .text u => listContains s u
    | _, _ => false
  | .notLike =>
    match a, b with
    | .text s, .text u => !(listContains s u)
    | _, _ => false

inductive TableOp where
  | filter (columnIndex : Nat) (operator : ComparisonOperator) (value : Value)
  | project (indices : List Nat)
  | limit (count : Nat)
  | offset (n : Nat)
  | predicativeFilter (f : Tuple → Bool)
  | map (f : Tuple → Tuple)

/-- Sequential `std::mem::replace(&mut tuple_values[idx], Value::Null)`
collection used by `Project` (a duplicated index yields `Null` the second
time). Rust panics on an out-of-range index; `getD`/`set` leave the list
unchanged there instead. -/
def memReplaceCollect : List Nat → List Value → List Value × List Value
  | [], vals => ([], vals)
  | i :: is, vals =>
    let v := vals.getD i Value.null
    let rec_ := memReplaceCollect is (vals.set i Value.null)
    (v :: rec_.1, rec_.2)

/-- Mirror of `CombinedOpsStream::apply_ops_to_tuple`: apply the ops in
order to one tuple; a failed filter returns `None`; `Limit`/`Offset` are
no-ops here. -/
def applyOpsToTuple (ops : List TableOp) (t : Tuple) : Option Tuple :=
  match ops with
  | [] => some t
  | op :: rest =>
    match op with
    | .filter i cop v =>
      if matchesOp (t.getD i Value.null) cop v then applyOpsToTuple rest t else none
    | .predicativeFilter f => if f t then applyOpsToTuple rest t else none
    | .project idxs => applyOpsToTuple rest (memReplaceCollect idxs t).1
    | .map f => applyOpsToTuple rest (f t)
    | .limit _ => applyOpsToTuple rest t
    | .offset _ => applyOpsToTuple rest t

/-- Mirror of the fold in `CombinedOpsStream::new`: the offset counter is
the sum of all `Offset` values and the limit is the minimum of all
`Limit` values (`unwrap_or(usize::MAX).min(count)`). -/
def computeOffsetLimit (ops : List TableOp) : Nat × Option Nat :=
  ops.foldl (fun acc op =>
    match op with
    | .limit count => (acc.1, some (min (acc.2.getD (2 ^ 64 - 1)) count))
    | .offset n => (acc.1 + n, acc.2)
    | _ => acc) (0, none)

/-- The `taken >= limit` stop test of `CombinedOpsStream::poll_next`. -/
def limitReached (limit : Option Nat) (taken : Nat) : Bool :=
  match limit with
  | some l => decide (l ≤ taken)
  | none => false

/-- Mirror of `CombinedOpsStream::poll_next` driven to stream exhaustion:
check the limit, poll the upstream; a tuple arriving while
`offset_remaining > 0` is dropped *before* `apply_ops_to_tuple` runs;
otherwise the processed tuple (if it passes) is emitted and `taken`
increments. (The source checks the limit before polling; on an exhausted
upstream both orders yield the empty stream, so the check is folded into
the nonempty case.) -/
def runCombined (ops : List TableOp) : Nat → Nat → Option Nat → List Tuple → List Tuple
  | _, _, _, [] => []
  | offsetRemaining, taken, limit, t :: rest =>
    if limitReached limit taken then []
    else if 0 < offsetRemaining then
      runCombined ops (offsetRemaining - 1) taken limit rest
    else
      match applyOpsToTuple ops t with
      | some t' => t' :: runCombined ops 0 (taken + 1) limit rest
      | none => runCombined ops 0 taken limit rest

/-- Mirror of `apply_ops`: the composed stream over a finite input. -/
def combinedOpsOutput (ops : List TableOp) (input : List Tuple) : List Tuple :=
  runCombined ops (computeOffsetLimit ops).1 0 (computeOffsetLimit ops).2 input

/-- Modelled from the spec claim C4's words, for comparison with the
code: the offset drops the first `k` POST-filter tuples and the limit
keeps `m` of the remainder. -/
def claimOffsetSemantics (ops : List TableOp) (input : List Tuple) : List Tuple :=
  let post := input.filterMap (applyOpsToTuple ops)
  match (computeOffsetLimit ops).2 with
  | some m => ((post.drop (computeOffsetLimit ops).1).take m)
  | none => post.drop (computeOffsetLimit ops).1

/-- Claim C4 counterexample: with ops `[Filter(col0 == 1), Offset(1),
Limit(5)]` and input `[(0), (1)]`, the claim (offset drops the first
post-filter tuple, i.e. `(1)`) predicts an empty output, but the code
drops the pre-filter tuple `(0)` and emits `(1)`. -/
theorem c4_counterexample :
    combinedOpsOutput
        [TableOp.filter 0 .eq (Value.int 1), TableOp.offset 1, TableOp.limit 5]
        [[Value.int 0], [Value.int 1]]
      = [[Value.int 1]]
    ∧ claimOffsetSemantics
        [TableOp.filter 0 .eq (Value.int 1), TableOp.offset 1, TableOp.limit 5]
        [[Value.int 0], [Value.int 1]]
      = [] := by
  constructor
  · rfl
  · rfl

theorem drop_cons_pred {α : Type} (a : α) (l : List α) (n : Nat) (h : 0 < n) :
    (a :: l).drop n = l.drop (n - 1) := by
  rcases Nat.exists_eq_add_of_lt h with ⟨j, hj⟩
  subst hj
  simp

theorem runCombined_offset_drop (ops : List TableOp) (taken : Nat) (lim : Option Nat)
    (input : List Tuple) :
    ∀ offRem, runCombined ops offRem taken lim input
      = runCombined ops 0 taken lim (input.drop offRem) := by
  induction input with
  | nil =>
    intro offRem
    simp [runCombined]
  | cons t rest ih =>
    intro offRem
    rcases Nat.eq_zero_or_pos offRem with h0 | hpos
    · rw [h0]
      simp
    · rw [drop_cons_pred t rest offRem hpos]
      rw [runCombined]
      rcases hlim : limitReached lim taken with _ | _
      · rw [if_neg (by simp [hlim]), if_pos hpos, ih (offRem - 1)]
      · rw [if_pos (by simp [hlim])]
        rcases hd : rest.drop (offRem - 1) with _ | ⟨x, xs⟩
        · rw [runCombined]
        · rw [runCombined]
          rw [if_pos (by simp [hlim])]

theorem runCombined_limit_take (ops : List TableOp) (l : Nat) (input : List Tuple) :
    ∀ taken, runCombined ops 0 taken (some l) input
      = (input.filterMap (applyOpsToTuple ops)).take (l - taken) := by
  induction input with
  | nil =>
    intro taken
    simp [runCombined]
  | cons t rest ih =>
    intro taken
    rw [runCombined]
    rcases le_or_lt l taken with hle | hlt
    · rw [if_pos (by simp [limitReached]; omega)]
      have h0 : l - taken = 0 := by omega
      rw [h0]
      simp
    · rw [if_neg (by simp [limitReached]; omega)]
      simp only [Nat.lt_irrefl, if_false]
      rcases happ : applyOpsToTuple ops t with _ | t'
      · simp only [List.filterMap_cons, happ]
        exact ih taken
      · simp only [List.filterMap_cons, happ]
        have hsucc : l - taken = (l - (taken + 1)) + 1 := by omega
        rw [hsucc, List.take_succ_cons, ih (taken + 1)]

/-- Claim C4 (amended): in the composed stream with combined offset `k`
and limit `m`, the offset drops the first `k` tuples of the *upstream
input* (before any filter runs), every remaining tuple is passed through
the op pipeline, and the limit stops the stream after `m` emissions:
`output = ((input.drop k).filterMap (applyOpsToTuple ops)).take m`. -/
theorem c4_offset_prefilter_limit (ops : List TableOp) (input : List Tuple) (k m : Nat)
    (h : computeOffsetLimit ops = (k, some m)) :
    combinedOpsOutput ops input
      = ((input.drop k).filterMap (applyOpsToTuple ops)).take m := by
  unfold combinedOpsOutput
  rw [h]
  rw [runCombined_offset_drop, runCombined_limit_take]
  simp

/-- Witness for C4 (amended) at the counterexample's ops and input. -/
theorem c4_offset_prefilter_limit_witness :
    combinedOpsOutput
        [TableOp.filter 0 .eq (Value.int 1), TableOp.offset 1, TableOp.limit 5]
        [[Value.int 0], [Value.int 1]]
      = ((([[Value.int 0], [Value.int 1]] : List Tuple).drop 1).filterMap
          (applyOpsToTuple
            [TableOp.filter 0 .eq (Value.int 1), TableOp.offset 1, TableOp.limit 5])).take 5 :=
  c4_offset_prefilter_limit _ _ 1 5 rfl

/-! ## Logical IR (`src/query/mod.rs` as used by `transformer.rs`,
`builtins.rs` and `compiler.rs`)

The variant set follows the generation those three files agree on:
`TransactionType::Insert` carries an optional `returning` column list
(`builtins.rs`, `compiler.rs`), `TransactionOp` has `Filter`, `Limit`,
`Offset` and `Project` (`builtins.rs`, `compiler.rs`), and `QueryExpr`
has the `Tuple(Vec<String>)` column-list variant used by
`project_impl`/`insert_r_impl`. `Limit`/`Offset` counts are the `i32`
payloads of the `Value::Int` literals the built-ins extract. -/

inductive BinaryOperator where
  | add | subtract | multiply | divide | modulus | power | concat | and | or
deriving DecidableEq

mutual

inductive QueryExpr where
  | transaction (typ : TransactionType) (operations : List TransactionOp)
  | bind (input : QueryExpr) (func : QueryExpr)
  | lambda (params : List String) (body : Nat)
  | reference (name : String)
  | literal (value : Value)
  | column (name : String)
  | binaryOp (left : QueryExpr) (op : BinaryOperator) (right : QueryExpr)
  | apply (func : QueryExpr) (args : List QueryExpr)
  | binding (name : String) (value : QueryExpr) (body : QueryExpr)
  | predicate (p : PredicateExpr)
  | instanceRow (fields : List (String × QueryExpr))
  | tupleCols (cols : List String)
  | builtInFunction (name : String)

inductive TransactionType where
  | scan (tableName : String)
  | insert (tableName : String) (value : QueryExpr) (returning : Option (List String))

inductive TransactionOp where
  | filter (predicate : PredicateExpr)
  | limit (count : Int)
  | offset (n : Int)
  | project (columns : List String)

inductive PredicateExpr where
  | comparison (left : QueryExpr) (op : ComparisonOperator) (right : QueryExpr)
  | and (l r : PredicateExpr)
  | or (l r : PredicateExpr)
  | not (p : PredicateExpr)
  | isNull (e : QueryExpr)
  | isNotNull (e : QueryExpr)
  | inPred (e : QueryExpr) (es : List QueryExpr)
  | existsPred (e : QueryExpr)

end

/-! ## Catalog types used by the compiler and executor

`ColumnInfo`/`TableInfo` are the structures `exec.rs`, `compiler.rs` and
`internal.rs` construct and consume (`{id, name, data_type, nullable,
default}` and the column-name → `ColumnInfo` map); their own defining
module is not among the provided sources. -/

inductive DataType where
  | null | int | long | float | double | text | boolean | date | datetime | blob | byte
deriving DecidableEq

structure ColumnInfo where
  id : Nat
  name : String
  dataType : DataType
  nullable : Bool
  default : Option Value
deriving DecidableEq

structure TableInfo where
  columns : List (String × ColumnInfo)
deriving DecidableEq

/-- Modelled from the spec: `TableInfo::get_column_index` (the method's
body is not among the provided sources; `compiler.rs` calls it) resolves
a column name through the map to the column's `id`, which per §3 of the
spec is the position in the tuple. -/
def TableInfo.getColumnIndex (info : TableInfo) (name : String) : Option Nat :=
  (info.columns.lookup name).map ColumnInfo.id

inductive QueryError where
  | tableNotFound (table : String)
  | columnNotFound (column : String) (table : String)
  | notATransaction
  | symbolNotFound (name : String)
  | expectedRow
  | rowCannotBeEmbeddedIntoAnotherRow
deriving DecidableEq

/-! ## Plan compiler (`src/query/compiler.rs`) -/

/-- Mirror of `PlanCompiler::resolve_column_index`: look the table up in
the catalog, then the column in its `TableInfo`. -/
def resolveColumnIndex (catalog : List (String × TableInfo)) (table : String)
    (column : String) : Except QueryError Nat :=
  match catalog.lookup table with
  | none => .error (.tableNotFound table)
  | some info =>
    match info.getColumnIndex column with
    | none => .error (.columnNotFound column table)
    | some i => .ok i

/-- Mirror of `PlanCompiler::create_predicate_function` (a `// TODO:
implement` stub): always returns the constant-true row predicate. -/
def createPredicateFunction (_p : PredicateExpr) : Except QueryError (Tuple → Bool) :=
  .ok (fun _ => true)

/-- Mirror of `PlanCompiler::compile_transaction_ops`. A `Filter` lowers
to a direct `TableOp::Filter` only for a `Column OP Literal` comparison
(with the column resolved, errors propagating); every other predicate
shape takes the `PredicativeFilter` fallback. `Limit`/`Offset` pass
through (the source manipulates the count as `usize` end-to-end). -/
def compileTransactionOps (catalog : List (String × TableInfo)) (table : String)
    (top : TransactionOp) : Except QueryError (List TableOp) :=
  match top with
  | .filter p =>
    match p with
    | .comparison (QueryExpr.column colName) op (QueryExpr.literal value) =>
      match resolveColumnIndex catalog table colName with
      | .error e => .error e
      | .ok i => .ok [TableOp.filter i op value]
    | _ =>
      match createPredicateFunction p with
      | .error e => .error e
      | .ok f => .ok [TableOp.predicativeFilter f]
  | .limit count => .ok [TableOp.limit count.toNat]
  | .offset n => .ok [TableOp.offset n.toNat]
  | .project columns =>
    (columns.mapM (resolveColumnIndex catalog table)).map
      (fun idxs => [TableOp.project idxs])

/-- The discriminating shape of claim C7: a pure `Column OP Literal`
comparison. -/
def isColumnOpLiteral : PredicateExpr → Bool
  | .comparison (QueryExpr.column _) _ (QueryExpr.literal _) => true
  | _ => false

/-- Claim C7: a logical `Filter` compiles to a direct
`Filter{column_index, op, value}` exactly for pure `Column OP Literal`
predicates (with the column name resolved in the target table's info,
resolution errors propagating); every other predicate shape lowers to a
`PredicativeFilter` whose compiled row predicate is the constant-true
stub. -/
theorem c7_filter_lowering (catalog : List (String × TableInfo)) (table : String)
    (p : PredicateExpr) :
    (isColumnOpLiteral p = false →
      compileTransactionOps catalog table (.filter p)
        = .ok [TableOp.predicativeFilter (fun _ => true)])
    ∧ (∀ c op v, p = .comparison (.column c) op (.literal v) →
      compileTransactionOps catalog table (.filter p)
        = (resolveColumnIndex catalog table c).map
            (fun i => [TableOp.filter i op v])) := by
  constructor
  · intro hp
    simp only [compileTransactionOps]
    split
    · simp [isColumnOpLiteral] at hp
    · rfl
  · intro c op v hp
    subst hp
    simp only [compileTransactionOps]
    rcases h : resolveColumnIndex catalog table c with e | i <;> simp [h, Except.map]

/-- Witness for C7 at a concrete catalog and predicate (`age > 26` on a
two-column `users` table). -/
theorem c7_filter_lowering_witness :
    compileTransactionOps
        [("users", ⟨[("name", ⟨0, "name", DataType.text, false, none⟩),
          ("age", ⟨1, "age", DataType.int, false, none⟩)]⟩)] "users"
        (.filter (.comparison (.column "age") .gt (.literal (Value.int 26))))
      = (resolveColumnIndex
          [("users", ⟨[("name", ⟨0, "name", DataType.text, false, none⟩),
            ("age", ⟨1, "age", DataType.int, false, none⟩)]⟩)] "users" "age").map
          (fun i => [TableOp.filter i .gt (Value.int 26)]) :=
  (c7_filter_lowering _ "users" _).2 "age" .gt (Value.int 26) rfl

/-! ## Transformer built-ins (`src/query/transformer.rs`,
`src/query/builtins.rs`)

`AstToQueryTransformer::new` registers exactly three built-in
transactional functions — `scan` (arity 1), `filter` (arity 2) and
`insert` (arity 2), each with an inline `apply` closure. The registry is
modelled by its name/arity table. The scope stack is a list with the
innermost scope at the head (the source iterates the `Vec` reversed).
`builtins.rs` additionally defines free-standing `*_impl` functions
(including `limit_impl`), but no code registers them and the module is
not even declared in `query/mod.rs`. -/

inductive TransformError where
  | emptyBlock
  | undefinedReference (name : String)
  | unsupportedOperator
  | invalidFieldAccess
  | invalidNumber
  | unsupportedExpression
  | invalidLambdaParams
  | expectedLambda
  | invalidArgument (name : String)
  | tooManyArguments
  | unknownFunction
  | wrongNumberOfArguments (name : String) (expected found : Nat)
  | expectedNumber
deriving DecidableEq

inductive SymbolInfo where
  | value (e : QueryExpr)
  | function (e : QueryExpr)

structure AstToQueryTransformer where
  currentScope : List (List (String × SymbolInfo))
  currentRowVariable : Option String
  builtInFunctions : List (String × Nat)

/-- Mirror of `AstToQueryTransformer::new`: one empty scope, no row
variable, and the three registered built-ins with their arities. -/
def AstToQueryTransformer.new : AstToQueryTransformer :=
  { currentScope := [[]]
    currentRowVariable := none
    builtInFunctions := [("scan", 1), ("filter", 2), ("insert", 2)] }

def lookupScopes : List (List (String × SymbolInfo)) → String → Option SymbolInfo
  | [], _ => none
  | scope :: rest, name =>
    match scope.lookup name with
    | some info => some info
    | none => lookupScopes rest name

/-- Mirror of `AstToQueryTransformer::resolve_reference`: built-in
registry first, then the scope stack innermost-out, else a free
`Reference`. (The source wraps every outcome in `Ok`.) -/
def AstToQueryTransformer.resolveReference (t : AstToQueryTransformer)
    (name : String) : QueryExpr :=
  if (t.builtInFunctions.lookup name).isSome then .builtInFunction name
  else
    match lookupScopes t.currentScope name with
    | some (.value e) => e
    | some (.function e) => e
    | none => .reference name

/-- Mirror of `limit_impl` in `builtins.rs`: an Int literal first
argument and a transaction second argument append `Limit{count}` to the
transaction's operation list. (This function is defined but never
registered anywhere.) -/
def limitImpl (args : List QueryExpr) : Except TransformError QueryExpr :=
  match args.get? 0 with
  | some (QueryExpr.literal (Value.int n)) =>
    match args.get? 1 with
    | none => .error (.invalidArgument "limit")
    | some input =>
      match input with
      | QueryExpr.transaction typ operations =>
        .ok (QueryExpr.transaction typ (operations ++ [TransactionOp.limit n]))
      | _ => .error (.invalidArgument "limit")
  | _ => .error .expectedNumber

/-- Claim C6 counterexample: the transformer's built-in registry does not
contain `limit`, and resolving the name `limit` on a fresh transformer
yields a free `Reference` — not a built-in transactional function. -/
theorem c6_counterexample :
    AstToQueryTransformer.new.builtInFunctions.lookup "limit" = none
    ∧ AstToQueryTransformer.new.resolveReference "limit"
      = QueryExpr.reference "limit" := by
  constructor
  · rfl
  · rfl

/-- Claim C6 (amended): the built-in registry holds exactly `scan`
(arity 1), `filter` (arity 2) and `insert` (arity 2); the name `limit`
resolves to a free `Reference`. The unregistered `limit_impl` helper in
`builtins.rs`, applied to an Int literal `n` and an input transaction,
does return that transaction with `Limit{n}` appended. -/
theorem c6_limit_not_registered :
    AstToQueryTransformer.new.builtInFunctions
      = [("scan", 1), ("filter", 2), ("insert", 2)]
    ∧ AstToQueryTransformer.new.resolveReference "limit"
      = QueryExpr.reference "limit"
    ∧ (∀ (n : Int) (typ : TransactionType) (ops : List TransactionOp),
        limitImpl [QueryExpr.literal (Value.int n), QueryExpr.transaction typ ops]
          = .ok (QueryExpr.transaction typ (ops ++ [TransactionOp.limit n]))) :=
  ⟨rfl, rfl, fun _ _ _ => rfl⟩

/-! ## Insert execution (`src/query/exec.rs`)

`QueryExecutor::build_tuple` collects the provided `(name, value)` pairs
into a `HashMap` (a later duplicate overwrites an earlier one), sorts the
table's columns by `id`, and fills each column from the provided value,
else its default, else `Null` when nullable, else fails. The `HashMap`
lookup is modelled as last-occurrence lookup; `sort_by_key` as an
insertion sort on `id`. -/

/-- `HashMap::get` after `collect()` from a pair list: the value of the
last occurrence of the key. -/
def valueMapGet (values : List (String × Value)) (name : String) : Option Value :=
  values.reverse.lookup name

def insertById (c : ColumnInfo) : List ColumnInfo → List ColumnInfo
  | [] => [c]
  | d :: ds => if d.id ≤ c.id then d :: insertById c ds else c :: d :: ds

/-- `columns.sort_by_key(|col| col.id)` as an insertion sort. -/
def sortById : List ColumnInfo → List ColumnInfo
  | [] => []
  | c :: cs => insertById c (sortById cs)

theorem insertById_perm (c : ColumnInfo) (l : List ColumnInfo) :
    (insertById c l).Perm (c :: l) := by
  induction l with
  | nil => exact List.Perm.refl _
  | cons d ds ih =>
    rw [insertById]
    split_ifs with h
    · exact (ih.cons d).trans (List.Perm.swap c d ds)
    · exact List.Perm.refl _

theorem sortById_perm (l : List ColumnInfo) : (sortById l).Perm l := by
  induction l with
  | nil => exact List.Perm.refl _
  | cons c cs ih => exact (insertById_perm c (sortById cs)).trans (ih.cons c)

theorem insertById_sorted (c : ColumnInfo) (l : List ColumnInfo)
    (h : l.Pairwise (fun a b => a.id ≤ b.id)) :
    (insertById c l).Pairwise (fun a b => a.id ≤ b.id) := by
  induction l with
  | nil => simp [insertById]
  | cons d ds ih =>
    rw [insertById]
    rcases h with _ | ⟨hd, hds⟩
    split_ifs with hle
    · refine List.Pairwise.cons ?_ (ih hds)
      intro x hx
      have hx' := (insertById_perm c ds).mem_iff.mp hx
      rcases List.mem_cons.mp hx' with hxc | hxd
      · subst hxc
        exact hle
      · exact hd x hxd
    · refine List.Pairwise.cons ?_ (List.Pairwise.cons hd hds)
      intro x hx
      rcases List.mem_cons.mp hx with hxd | hxds
      · subst hxd
        omega
      · have := hd x hxds
        omega

theorem sortById_sorted (l : List ColumnInfo) :
    (sortById l).Pairwise (fun a b => a.id ≤ b.id) := by
  induction l with
  | nil => simp [sortById]
  | cons c cs ih => exact insertById_sorted c (sortById cs) ih

/-- The per-column choice of claim C5: the provided value, else the
declared default, else `Null` when nullable, else nothing. -/
def chooseValue (values : List (String × Value)) (c : ColumnInfo) : Option Value :=
  match valueMapGet values c.name with
  | some v => some v
  | none =>
    match c.default with
    | some d => some d
    | none => if c.nullable then some Value.null else none

/-- The column loop of `QueryExecutor::build_tuple`. -/
def buildTupleGo (values : List (String × Value)) :
    List ColumnInfo → Except String (List Value)
  | [] => .ok []
  | c :: cs =>
    match valueMapGet values c.name with
    | some v => (buildTupleGo values cs).map (fun t => v :: t)
    | none =>
      match c.default with
      | some d => (buildTupleGo values cs).map (fun t => d :: t)
      | none =>
        if c.nullable then (buildTupleGo values cs).map (fun t => Value.null :: t)
        else .error ("Missing value for column without defaults '" ++ c.name ++ "'")

/-- Mirror of `QueryExecutor::build_tuple`. -/
def buildTuple (info : TableInfo) (values : List (String × Value)) :
    Except String (List Value) :=
  buildTupleGo values (sortById (info.columns.map Prod.snd))

/-- The `returning` projection of the Insert arm (same sequential
`mem::replace` collection as `Project`). -/
def extractReturning (t : List Value) (idxs : List Nat) : List Value :=
  (memReplaceCollect idxs t).1

/-- Mirror of the Insert arm of `QueryExecutor::execute`: build the
full-width tuple (a failure propagates before any heap access), insert it
into the heap, then produce either the `returning` single-tuple stream
run through the ops, or an empty stream. -/
def executeInsert (info : TableInfo) (values : List (String × Value))
    (ops : List TableOp) (returning : Option (List Nat)) (heap : TableHeap) :
    TableHeap × Except String (List Tuple) :=
  match buildTuple info values with
  | .error e => (heap, .error e)
  | .ok t =>
    match TableHeap.insertTuple t heap with
    | (h', .error e) => (h', .error ("Insert failed: " ++ e))
    | (h', .ok _) =>
      match returning with
      | some idxs => (h', .ok (combinedOpsOutput ops [extractReturning t idxs]))
      | none => (h', .ok [])

theorem buildTupleGo_all_some (values : List (String × Value))
    (cols : List ColumnInfo)
    (h : ∀ c ∈ cols, (chooseValue values c).isSome = true) :
    buildTupleGo values cols = .ok (cols.filterMap (chooseValue values)) := by
  induction cols with
  | nil => rfl
  | cons c cs ih =>
    have hc := h c (List.mem_cons_self _ _)
    have hcs := ih (fun x hx => h x (List.mem_cons_of_mem _ hx))
    rw [buildTupleGo]
    simp only [List.filterMap_cons]
    rcases hv : valueMapGet values c.name with _ | v
    · rcases hdef : c.default with _ | d
      · rcases hnul : c.nullable with _ | _
        · rw [chooseValue, hv, hdef, hnul] at hc
          simp at hc
        · rw [if_pos rfl]
          rw [hcs]
          rw [chooseValue, hv, hdef, hnul]
          simp [Except.map]
      · rw [hcs]
        rw [chooseValue, hv, hdef]
        simp [Except.map]
    · rw [hcs]
      rw [chooseValue, hv]
      simp [Except.map]

theorem buildTupleGo_error (values : List (String × Value)) (cols : List ColumnInfo)
    (h : ∃ c ∈ cols, chooseValue values c = none) :
    ∃ e, buildTupleGo values cols = .error e := by
  induction cols with
  | nil => simp at h
  | cons c cs ih =>
    rw [buildTupleGo]
    rcases hv : valueMapGet values c.name with _ | v
    · rcases hdef : c.default with _ | d
      · rcases hnul : c.nullable with _ | _
        · exact ⟨_, rfl⟩
        · rw [if_pos rfl]
          have hcs : ∃ c ∈ cs, chooseValue values c = none := by
            rcases h with ⟨x, hx, hxnone⟩
            rcases List.mem_cons.mp hx with hxc | hxcs
            · subst hxc
              rw [chooseValue, hv, hdef, hnul] at hxnone
              simp at hxnone
            · exact ⟨x, hxcs, hxnone⟩
          obtain ⟨e, he⟩ := ih hcs
          rw [he]
          exact ⟨e, rfl⟩
      · have hcs : ∃ c ∈ cs, chooseValue values c = none := by
          rcases h with ⟨x, hx, hxnone⟩
          rcases List.mem_cons.mp hx with hxc | hxcs
          · subst hxc
            rw [chooseValue, hv, hdef] at hxnone
            simp at hxnone
          · exact ⟨x, hxcs, hxnone⟩
        obtain ⟨e, he⟩ := ih hcs
        rw [he]
        exact ⟨e, rfl⟩
    · have hcs : ∃ c ∈ cs, chooseValue values c = none := by
        rcases h with ⟨x, hx, hxnone⟩
        rcases List.mem_cons.mp hx with hxc | hxcs
        · subst hxc
          rw [chooseValue, hv] at hxnone
          simp at hxnone
        · exact ⟨x, hxcs, hxnone⟩
      obtain ⟨e, he⟩ := ih hcs
      rw [he]
      exact ⟨e, rfl⟩

/-- Claim C5: executing a physical Insert builds a full-width tuple in
column-id order — each column taking the provided value, else its
default, else `Null` when nullable — and when some column has none of the
three, the whole insert fails with the missing-value error without
touching the heap. -/
theorem c5_insert_builds_tuple (info : TableInfo) (values : List (String × Value)) :
    ((∀ c ∈ info.columns.map Prod.snd, (chooseValue values c).isSome = true) →
      (sortById (info.columns.map Prod.snd)).Pairwise (fun a b => a.id ≤ b.id)
      ∧ (sortById (info.columns.map Prod.snd)).Perm (info.columns.map Prod.snd)
      ∧ buildTuple info values
          = .ok ((sortById (info.columns.map Prod.snd)).filterMap (chooseValue values)))
    ∧ ((∃ c ∈ info.columns.map Prod.snd, chooseValue values c = none) →
      (∃ e, buildTuple info values = .error e)
      ∧ ∀ ops ret heap, (executeInsert info values ops ret heap).1 = heap) := by
  constructor
  · intro h
    refine ⟨sortById_sorted _, sortById_perm _, ?_⟩
    unfold buildTuple
    apply buildTupleGo_all_some
    intro c hc
    exact h c ((sortById_perm _).mem_iff.mp hc)
  · intro h
    have herr : ∃ e, buildTuple info values = .error e := by
      unfold buildTuple
      apply buildTupleGo_error
      rcases h with ⟨c, hc, hnone⟩
      exact ⟨c, (sortById_perm _).mem_iff.mpr hc, hnone⟩
    refine ⟨herr, ?_⟩
    intro ops ret heap
    obtain ⟨e, he⟩ := herr
    unfold executeInsert
    rw [he]

/-- Witness for C5: a table whose columns are listed out of id order,
with a provided value, a default and a nullable column; the built tuple
comes out in id order. -/
theorem c5_insert_builds_tuple_witness :
    (sortById ((TableInfo.mk [("b", ⟨1, "b", DataType.int, false, some (Value.int 5)⟩),
        ("a", ⟨0, "a", DataType.text, false, none⟩),
        ("c", ⟨2, "c", DataType.boolean, true, none⟩)]).columns.map Prod.snd)).Pairwise
        (fun a b => a.id ≤ b.id)
    ∧ (sortById ((TableInfo.mk [("b", ⟨1, "b", DataType.int, false, some (Value.int 5)⟩),
        ("a", ⟨0, "a", DataType.text, false, none⟩),
        ("c", ⟨2, "c", DataType.boolean, true, none⟩)]).columns.map Prod.snd)).Perm
        ((TableInfo.mk [("b", ⟨1, "b", DataType.int, false, some (Value.int 5)⟩),
        ("a", ⟨0, "a", DataType.text, false, none⟩),
        ("c", ⟨2, "c", DataType.boolean, true, none⟩)]).columns.map Prod.snd)
    ∧ buildTuple (TableInfo.mk [("b", ⟨1, "b", DataType.int, false, some (Value.int 5)⟩),
        ("a", ⟨0, "a", DataType.text, false, none⟩),
        ("c", ⟨2, "c", DataType.boolean, true, none⟩)])
        [("a", Value.text [104])]
      = .ok ((sortById ((TableInfo.mk [("b", ⟨1, "b", DataType.int, false, some (Value.int 5)⟩),
        ("a", ⟨0, "a", DataType.text, false, none⟩),
        ("c", ⟨2, "c", DataType.boolean, true, none⟩)]).columns.map Prod.snd)).filterMap
          (chooseValue [("a", Value.text [104])])) :=
  (c5_insert_builds_tuple _ [("a", Value.text [104])]).1 (by decide)

/-! ## Buffer-pool pin protocol (`src/page/pool.rs`)

One slot of a shard, under an interleaving semantics in which each atomic
instruction of the source is one step. The slot state is its `pin` (a
count, or the `usize::MAX` EVICTING sentinel — counts never reach the
sentinel since they are bounded by the task count), `dirty`, `key`, and
each task's position in the protocol:

* `pinTry` — the fast path's successful `pin.compare_exchange(n, n+1)`
  (the loop re-reads on failure and breaks out when it observes the
  sentinel, so a completed CAS always starts from a count);
* `unpin` — `Shard::unpin`'s `fetch_sub(1)`, setting `dirty` when the
  previous value was 1 and `is_dirty` held; also the fast path's
  decrement after a key recheck failure;
* `evictTry` — the victim search's `pin.compare_exchange(0, EVICTING)`;
* `restoreZero` — the second-chance `pin.store(0)`;
* `restoreOne` — the `pin.store(1)` that finishes an eviction;
* `clearDirtyOwner` / `storeKeyOwner` / `loadBufOwner` — the eviction
  body (`dirty.swap(false)`, `key.store`, `read_into_buf`), owner-only;
* `holderAccess` — a pin holder using the returned buffer pointer;
* `flushRead` — `flush_page`/`flush_all_dirty_pages_in_shard` on this
  slot: guarded only by the key match and `dirty.swap(false)`, it reads
  the slot's buffer without touching `pin`. -/

inductive PinVal where
  | count (n : Nat)
  | evicting
deriving DecidableEq

inductive TaskPhase where
  | idle
  | holding
  | evicting
deriving DecidableEq

structure PoolState (τ : Type) where
  pin : PinVal
  dirty : Bool
  key : Nat
  tasks : τ → TaskPhase

def updateTask {τ : Type} [DecidableEq τ] (tasks : τ → TaskPhase) (t : τ)
    (ph : TaskPhase) : τ → TaskPhase :=
  fun x => if x = t then ph else tasks x

inductive PoolAction where
  | pinTry
  | unpin (wasDirty : Bool)
  | evictTry
  | restoreZero
  | restoreOne
  | clearDirtyOwner
  | storeKeyOwner (k : Nat)
  | loadBufOwner
  | holderAccess
  | flushRead
deriving DecidableEq

/-- The steps that read or write the slot's 4096-byte buffer. -/
def readsBuf : PoolAction → Bool
  | .holderAccess => true
  | .loadBufOwner => true
  | .flushRead => true
  | _ => false

inductive PoolStep {τ : Type} [DecidableEq τ] (t : τ) :
    PoolAction → PoolState τ → PoolState τ → Prop where
  | pinTry (s : PoolState τ) (n : Nat) (hT : s.tasks t = .idle)
      (hp : s.pin = .count n) :
      PoolStep t .pinTry s
        { s with pin := .count (n + 1), tasks := updateTask s.tasks t .holding }
  | unpin (s : PoolState τ) (n : Nat) (wasDirty : Bool)
      (hT : s.tasks t = .holding) (hp : s.pin = .count n) :
      PoolStep t (.unpin wasDirty) s
        { s with pin := .count (n - 1), dirty := if wasDirty && n == 1 then true else s.dirty, tasks := updateTask s.tasks t .idle }
  | evictTry (s : PoolState τ) (hT : s.tasks t = .idle) (hp : s.pin = .count 0) :
      PoolStep t .evictTry s
        { s with pin := .evicting, tasks := updateTask s.tasks t .evicting }
  | restoreZero (s : PoolState τ) (hT : s.tasks t = .evicting) :
      PoolStep t .restoreZero s
        { s with pin := .count 0, tasks := updateTask s.tasks t .idle }
  | restoreOne (s : PoolState τ) (hT : s.tasks t = .evicting) :
      PoolStep t .restoreOne s
        { s with pin := .count 1, tasks := updateTask s.tasks t .holding }
  | clearDirtyOwner (s : PoolState τ) (hT : s.tasks t = .evicting) :
      PoolStep t .clearDirtyOwner s { s with dirty := false }
  | storeKeyOwner (s : PoolState τ) (k : Nat) (hT : s.tasks t = .evicting) :
      PoolStep t (.storeKeyOwner k) s { s with key := k }
  | loadBufOwner (s : PoolState τ) (hT : s.tasks t = .evicting) :
      PoolStep t .loadBufOwner s s
  | holderAccess (s : PoolState τ) (hT : s.tasks t = .holding) :
      PoolStep t .holderAccess s s
  | flushRead (s : PoolState τ) (hT : s.tasks t = .idle) (hd : s.dirty = true) :
      PoolStep t .flushRead s { s with dirty := false }

/-- A fresh slot hosting a clean resident page under key 0, all tasks
outside the protocol. -/
def poolInit (τ : Type) : PoolState τ :=
  { pin := .count 0, dirty := false, key := 0, tasks := fun _ => .idle }

def PoolReachable {τ : Type} [DecidableEq τ] (s : PoolState τ) : Prop :=
  Relation.ReflTransGen (fun a b => ∃ t act, PoolStep t act a b) (poolInit τ) s

def holdersOf {τ : Type} [Fintype τ] [DecidableEq τ] (s : PoolState τ) : Finset τ :=
  Finset.univ.filter (fun t => s.tasks t = .holding)

def evictorsOf {τ : Type} [Fintype τ] [DecidableEq τ] (s : PoolState τ) : Finset τ :=
  Finset.univ.filter (fun t => s.tasks t = .evicting)

/-- The pin-protocol invariant: a counted pin equals the number of
holders and excludes evictors; the sentinel means exactly one evictor and
no holder. -/
def PoolInv {τ : Type} [Fintype τ] [DecidableEq τ] (s : PoolState τ) : Prop :=
  (∀ n, s.pin = .count n → evictorsOf s = ∅ ∧ (holdersOf s).card = n)
  ∧ (s.pin = .evicting → holdersOf s = ∅ ∧ ∃ e, evictorsOf s = {e})

theorem filter_updateTask {τ : Type} [Fintype τ] [DecidableEq τ]
    (tasks : τ → TaskPhase) (t : τ) (ph target : TaskPhase) :
    Finset.univ.filter (fun x => updateTask tasks t ph x = target)
      = (if ph = target then insert t (Finset.univ.filter (fun x => tasks x = target))
          else (Finset.univ.filter (fun x => tasks x = target)).erase t) := by
  ext x
  by_cases hx : x = t
  · subst hx
    split_ifs with hph <;> simp [updateTask, hph]
  · split_ifs with hph <;> simp [updateTask, hx]

theorem mem_holdersOf {τ : Type} [Fintype τ] [DecidableEq τ] (s : PoolState τ)
    (t : τ) : t ∈ holdersOf s ↔ s.tasks t = .holding := by
  simp [holdersOf]

theorem mem_evictorsOf {τ : Type} [Fintype τ] [DecidableEq τ] (s : PoolState τ)
    (t : τ) : t ∈ evictorsOf s ↔ s.tasks t = .evicting := by
  simp [evictorsOf]

theorem holdersOf_eq {τ : Type} [Fintype τ] [DecidableEq τ] (s : PoolState τ) :
    Finset.univ.filter (fun x => s.tasks x = TaskPhase.holding) = holdersOf s := rfl

theorem evictorsOf_eq {τ : Type} [Fintype τ] [DecidableEq τ] (s : PoolState τ) :
    Finset.univ.filter (fun x => s.tasks x = TaskPhase.evicting) = evictorsOf s := rfl

theorem poolInv_step {τ : Type} [Fintype τ] [DecidableEq τ] {t : τ} {a : PoolAction}
    {s s' : PoolState τ} (hinv : PoolInv s) (hstep : PoolStep t a s s') :
    PoolInv s' := by
  obtain ⟨hcount, hevict⟩ := hinv
  cases hstep with
  | pinTry s n hT hp =>
    obtain ⟨hev, hcard⟩ := hcount n hp
    constructor
    · intro m hm
      simp only [PinVal.count.injEq] at hm
      constructor
      · show Finset.univ.filter (fun x => updateTask s.tasks t .holding x = .evicting) = ∅
        rw [filter_updateTask, if_neg (by simp), evictorsOf_eq, hev]
        rfl
      · show (Finset.univ.filter (fun x => updateTask s.tasks t .holding x = .holding)).card = m
        rw [filter_updateTask, if_pos rfl, holdersOf_eq]
        have hnot : t ∉ holdersOf s := by
          rw [mem_holdersOf, hT]
          simp
        rw [Finset.card_insert_of_not_mem hnot]
        omega
    · intro hbad
      simp at hbad
  | unpin s n wasDirty hT hp =>
    obtain ⟨hev, hcard⟩ := hcount n hp
    constructor
    · intro m hm
      simp only [PinVal.count.injEq] at hm
      constructor
      · show Finset.univ.filter (fun x => updateTask s.tasks t .idle x = .evicting) = ∅
        rw [filter_updateTask, if_neg (by simp), evictorsOf_eq, hev]
        rfl
      · show (Finset.univ.filter (fun x => updateTask s.tasks t .idle x = .holding)).card = m
        rw [filter_updateTask, if_neg (by simp), holdersOf_eq]
        have hmem : t ∈ holdersOf s := by
          rw [mem_holdersOf, hT]
        rw [Finset.card_erase_of_mem hmem]
        omega
    · intro hbad
      simp at hbad
  | evictTry s hT hp =>
    obtain ⟨hev, hcard⟩ := hcount 0 hp
    have hhold : holdersOf s = ∅ := Finset.card_eq_zero.mp hcard
    constructor
    · intro m hm
      simp at hm
    · intro _
      constructor
      · show Finset.univ.filter (fun x => updateTask s.tasks t .evicting x = .holding) = ∅
        rw [filter_updateTask, if_neg (by simp), holdersOf_eq, hhold]
        rfl
      · refine ⟨t, ?_⟩
        show Finset.univ.filter (fun x => updateTask s.tasks t .evicting x = .evicting) = {t}
        rw [filter_updateTask, if_pos rfl, evictorsOf_eq, hev]
        rfl
  | restoreZero s hT =>
    have hpinE : s.pin = .evicting := by
      rcases hpv : s.pin with n | _
      · obtain ⟨hev, _⟩ := hcount n hpv
        have hmem : t ∈ evictorsOf s := (mem_evictorsOf s t).mpr hT
        rw [hev] at hmem
        simp at hmem
      · rfl
    obtain ⟨hhold, e, hev⟩ := hevict hpinE
    have hte : t = e := by
      have hmem : t ∈ evictorsOf s := (mem_evictorsOf s t).mpr hT
      rw [hev] at hmem
      simpa using hmem
    constructor
    · intro m hm
      simp only [PinVal.count.injEq] at hm
      constructor
      · show Finset.univ.filter (fun x => updateTask s.tasks t .idle x = .evicting) = ∅
        rw [filter_updateTask, if_neg (by simp), evictorsOf_eq, hev, hte]
        simp
      · show (Finset.univ.filter (fun x => updateTask s.tasks t .idle x = .holding)).card = m
        rw [filter_updateTask, if_neg (by simp), holdersOf_eq, hhold]
        simp [← hm]
    · intro hbad
      simp at hbad
  | restoreOne s hT =>
    have hpinE : s.pin = .evicting := by
      rcases hpv : s.pin with n | _
      · obtain ⟨hev, _⟩ := hcount n hpv
        have hmem : t ∈ evictorsOf s := (mem_evictorsOf s t).mpr hT
        rw [hev] at hmem
        simp at hmem
      · rfl
    obtain ⟨hhold, e, hev⟩ := hevict hpinE
    have hte : t = e := by
      have hmem : t ∈ evictorsOf s := (mem_evictorsOf s t).mpr hT
      rw [hev] at hmem
      simpa using hmem
    constructor
    · intro m hm
      simp only [PinVal.count.injEq] at hm
      constructor
      · show Finset.univ.filter (fun x => updateTask s.tasks t .holding x = .evicting) = ∅
        rw [filter_updateTask, if_neg (by simp), evictorsOf_eq, hev, hte]
        simp
      · show (Finset.univ.filter (fun x => updateTask s.tasks t .holding x = .holding)).card = m
        rw [filter_updateTask, if_pos rfl, holdersOf_eq]
        have hnot : t ∉ holdersOf s := by
          rw [hhold]
          simp
        rw [Finset.card_insert_of_not_mem hnot, hhold]
        simp [← hm]
    · intro hbad
      simp at hbad
  | clearDirtyOwner s hT => exact ⟨hcount, hevict⟩
  | storeKeyOwner s k hT => exact ⟨hcount, hevict⟩
  | loadBufOwner s hT => exact ⟨hcount, hevict⟩
  | holderAccess s hT => exact ⟨hcount, hevict⟩
  | flushRead s hT hd => exact ⟨hcount, hevict⟩

theorem poolInv_init {τ : Type} [Fintype τ] [DecidableEq τ] :
    PoolInv (poolInit τ) := by
  constructor
  · intro n hn
    simp only [poolInit, PinVal.count.injEq] at hn
    constructor
    · show Finset.univ.filter (fun _ => TaskPhase.idle = TaskPhase.evicting) = ∅
      simp
    · show (Finset.univ.filter (fun _ => TaskPhase.idle = TaskPhase.holding)).card = n
      simp [← hn]
  · intro hbad
    simp [poolInit] at hbad

theorem poolInv_reachable {τ : Type} [Fintype τ] [DecidableEq τ]
    {s : PoolState τ} (hs : PoolReachable s) : PoolInv s := by
  induction hs with
  | refl => exact poolInv_init
  | tail _ hstep ih =>
    obtain ⟨t, a, hst⟩ := hstep
    exact poolInv_step ih hst

/-- Claim C9 (amended): in every reachable state in which some task `e`
holds the EVICTING sentinel, the pin is the sentinel, no other task holds
a pin or an eviction on the slot, and the only step any other task can
take on the slot is a flush read — in particular no other task can pin,
unpin, evict, or access the buffer through a pin until `e` restores a
non-sentinel pin value. The flush paths, gated only by the dirty bit and
key, remain able to read the buffer. -/
theorem c9_eviction_mutual_exclusion {τ : Type} [Fintype τ] [DecidableEq τ]
    (s : PoolState τ) (hs : PoolReachable s) (e : τ)
    (he : s.tasks e = .evicting) :
    s.pin = .evicting
    ∧ (∀ t, t ≠ e → s.tasks t ≠ .holding ∧ s.tasks t ≠ .evicting)
    ∧ (∀ t a s', PoolStep t a s s' → t ≠ e → a = .flushRead) := by
  have hinv := poolInv_reachable hs
  obtain ⟨hcount, hevict⟩ := hinv
  have hpinE : s.pin = .evicting := by
    rcases hpv : s.pin with n | _
    · obtain ⟨hev, _⟩ := hcount n hpv
      have : e ∈ evictorsOf s := (mem_evictorsOf s e).mpr he
      rw [hev] at this
      simp at this
    · rfl
  obtain ⟨hhold, e', hev⟩ := hevict hpinE
  have hee : e = e' := by
    have : e ∈ evictorsOf s := (mem_evictorsOf s e).mpr he
    rw [hev] at this
    simpa using this
  subst hee
  refine ⟨hpinE, ?_, ?_⟩
  · intro t ht
    constructor
    · intro hh
      have : t ∈ holdersOf s := (mem_holdersOf s t).mpr hh
      rw [hhold] at this
      simp at this
    · intro hh
      have : t ∈ evictorsOf s := (mem_evictorsOf s t).mpr hh
      rw [hev] at this
      simp at this
      exact ht this
  · intro t a s' hstep ht
    cases hstep with
    | pinTry s n hT hp => rw [hpinE] at hp; exact absurd hp (by simp)
    | unpin s n wasDirty hT hp => rw [hpinE] at hp; exact absurd hp (by simp)
    | evictTry s hT hp => rw [hpinE] at hp; exact absurd hp (by simp)
    | restoreZero s hT =>
      exact absurd (by
        have : t ∈ evictorsOf s := (mem_evictorsOf s t).mpr hT
        rw [hev] at this
        simpa using this) ht
    | restoreOne s hT =>
      exact absurd (by
        have : t ∈ evictorsOf s := (mem_evictorsOf s t).mpr hT
        rw [hev] at this
        simpa using this) ht
    | clearDirtyOwner s hT =>
      exact absurd (by
        have : t ∈ evictorsOf s := (mem_evictorsOf s t).mpr hT
        rw [hev] at this
        simpa using this) ht
    | storeKeyOwner s k hT =>
      exact absurd (by
        have : t ∈ evictorsOf s := (mem_evictorsOf s t).mpr hT
        rw [hev] at this
        simpa using this) ht
    | loadBufOwner s hT =>
      exact absurd (by
        have : t ∈ evictorsOf s := (mem_evictorsOf s t).mpr hT
        rw [hev] at this
        simpa using this) ht
    | holderAccess s hT =>
      have hmem : t ∈ holdersOf s := (mem_holdersOf s t).mpr hT
      rw [hhold] at hmem
      simp at hmem
    | flushRead s hT hd => rfl

/-! Concrete eviction-window trace with two tasks: task 0 pins, unpins
dirty, task 1 opens an eviction window, and task 0's flush then reads the
buffer inside the window. -/

def poolS1 : PoolState (Fin 2) :=
  { pin := .count 1, dirty := false, key := 0,
    tasks := updateTask (fun _ => .idle) 0 .holding }

def poolS2 : PoolState (Fin 2) :=
  { pin := .count 0, dirty := true, key := 0,
    tasks := updateTask (updateTask (fun _ => .idle) 0 .holding) 0 .idle }

def poolS3 : PoolState (Fin 2) :=
  { pin := .evicting, dirty := true, key := 0,
    tasks := updateTask (updateTask (updateTask (fun _ => .idle) 0 .holding) 0 .idle)
      1 .evicting }

def poolS4 : PoolState (Fin 2) :=
  { poolS3 with dirty := false }

theorem poolS3_reachable : PoolReachable poolS3 :=
  Relation.ReflTransGen.tail
    (Relation.ReflTransGen.tail
      (Relation.ReflTransGen.tail Relation.ReflTransGen.refl
        ⟨0, .pinTry, PoolStep.pinTry _ 0 rfl rfl⟩)
      ⟨0, .unpin true, PoolStep.unpin _ 1 true rfl rfl⟩)
    ⟨1, .evictTry, PoolStep.evictTry _ rfl rfl⟩

/-- Claim C9 counterexample: in the reachable state `poolS3`, task 1 has
CAS-transitioned the pin from 0 to the EVICTING sentinel and has not yet
restored it, yet task 0 — a different task — can take a `flushRead` step,
a read of the slot's buffer, inside the eviction window. The claim's "no
other task can pin, READ, or evict that slot" is therefore false: the
flush paths read the buffer gated only by the dirty bit and key, not the
pin. -/
theorem c9_counterexample :
    PoolReachable poolS3
    ∧ poolS3.tasks 1 = TaskPhase.evicting
    ∧ PoolStep (0 : Fin 2) PoolAction.flushRead poolS3 poolS4
    ∧ readsBuf PoolAction.flushRead = true
    ∧ (0 : Fin 2) ≠ 1 :=
  ⟨poolS3_reachable, rfl, PoolStep.flushRead _ rfl rfl, rfl, by decide⟩

/-- Witness for C9 (amended) at the concrete window state `poolS3` with
evictor task 1. -/
theorem c9_eviction_mutual_exclusion_witness :
    poolS3.pin = PinVal.evicting
    ∧ (∀ t, t ≠ (1 : Fin 2) → poolS3.tasks t ≠ .holding ∧ poolS3.tasks t ≠ .evicting)
    ∧ (∀ t a s', PoolStep t a poolS3 s' → t ≠ (1 : Fin 2) → a = .flushRead) :=
  c9_eviction_mutual_exclusion poolS3 poolS3_reachable 1 rfl

end Akasha
